import Mathlib

/-!
Chessfinder: the UCI receiver and the board model.

A shallow embedding of `src/UCIReceiver.cpp` and `src/Board.cpp`.

* A `std::string` is a `List Char` (one `Char` per C++ `char`).
* An `std::istringstream` is an `IStream`: the characters not yet consumed and the
  negation of `fail()`.  Formatted extraction (`is >> x`) follows the C++ rules: leading
  white space is skipped, an extraction on a failed or exhausted stream fails and leaves
  its target unchanged, and a failed stream stays failed.
* `int` is a 32-bit signed integer held in an `Int`; a `float` is held as the exact
  value of the binary32 number, a dyadic rational (`FloatVal`).  The extractions
  `is >> int` and `is >> float` accept the characters of a `%d` and a `%g` field and
  set `failbit` when nothing converts or the value is out of range.
* A loop of the source is a function with a bound on the number of tests of its
  condition, which returns `none` when the bound is reached; `info` is shown never
  to reach it.
* The input stream of `run` is declared outside the two source files; its `getline`
  follows the spec, by which stream closure is fatal to the receive loop.
* The calls made on the `MatFinder` collaborator are collected, in order, in a list.
-/

namespace Stream

/-- The white space of the "C" locale (`std::isspace`). -/
def isSpace (c : Char) : Bool :=
  c == ' ' || c == '\t' || c == '\n' || c == '\x0b' || c == '\x0c' || c == '\r'

/-- Decimal digit test. -/
def isDigit (c : Char) : Bool := '0'.toNat ≤ c.toNat && c.toNat ≤ '9'.toNat

/-- Value of a decimal digit. -/
def digitVal (c : Char) : Nat := c.toNat - '0'.toNat

/-- Value of a digit sequence, most significant digit first. -/
def digitsVal (ds : List Char) : Nat := ds.foldl (fun a c => 10 * a + digitVal c) 0

/-- State of an input string stream: unread characters, and whether no extraction has
failed so far. -/
structure IStream where
  buf : List Char
  ok : Bool
deriving DecidableEq, Repr

/-- The stream `istringstream is(msg)`. -/
def IStream.ofString (msg : List Char) : IStream := ⟨msg, true⟩

/-- Skipping of leading white space done by the sentry of a formatted extraction. -/
def skipWs (l : List Char) : List Char := l.dropWhile isSpace

/-- The extraction `is >> token` into a `std::string`: `old` is the previous content of
`token`, kept when the extraction fails. -/
def getToken (s : IStream) (old : List Char) : List Char × IStream :=
  if s.ok then
    match skipWs s.buf with
    | [] => (old, ⟨[], false⟩)
    | c :: cs =>
      ((c :: cs).takeWhile (fun x => !isSpace x), ⟨(c :: cs).dropWhile (fun x => !isSpace x), true⟩)
  else (old, s)

def INT_MAX : Int := 2147483647

def INT_MIN : Int := -2147483648

/-- Reduction of an integer to the 32-bit two's complement range. -/
def wrapInt (x : Int) : Int := (x + 2147483648) % 4294967296 - 2147483648

/-- Splits an optional sign off a character sequence: the flag is true for `-`. -/
def takeSign : List Char → Bool × List Char
  | '-' :: cs => (true, cs)
  | '+' :: cs => (false, cs)
  | cs => (false, cs)

/-- The extraction `is >> n` into an `int` (base ten): an optional sign and the longest
run of digits are consumed.  Without a digit the result is 0 and the stream fails; a
value outside the `int` range is clamped and the stream fails. -/
def getInt (s : IStream) (old : Int) : Int × IStream :=
  if s.ok then
    match skipWs s.buf with
    | [] => (old, ⟨[], false⟩)
    | c :: cs =>
      let sg := takeSign (c :: cs)
      let ds := sg.2.takeWhile isDigit
      let rest := sg.2.dropWhile isDigit
      if ds.isEmpty then (0, ⟨rest, false⟩)
      else
        let v : Int := if sg.1 then -(digitsVal ds : Int) else (digitsVal ds : Int)
        if INT_MAX < v then (INT_MAX, ⟨rest, false⟩)
        else if v < INT_MIN then (INT_MIN, ⟨rest, false⟩)
        else (v, ⟨rest, true⟩)
  else (old, s)

/-- The exact value of a binary32 number: the dyadic rational `num / 2 ^ exp`, kept in
lowest terms (`exp = 0`, or `num` odd). -/
structure FloatVal where
  num : Int
  exp : Nat
deriving DecidableEq, Repr

/-- The `float` equal to an integer (exact for magnitudes up to `2 ^ 24`). -/
def FloatVal.ofInt (v : Int) : FloatVal := ⟨v, 0⟩

/-- The rational number a `FloatVal` stands for. -/
def FloatVal.toRat (x : FloatVal) : ℚ := (x.num : ℚ) / (2 : ℚ) ^ x.exp

/-- Sign change. -/
def FloatVal.neg (x : FloatVal) : FloatVal := ⟨-x.num, x.exp⟩

/-- The dyadic `n / 2 ^ k` in lowest terms. -/
def FloatVal.reduce : Nat → Nat → FloatVal
  | n, 0 => ⟨n, 0⟩
  | n, k + 1 => if n % 2 = 0 then FloatVal.reduce (n / 2) k else ⟨n, k + 1⟩

/-- Number of halvings that bring `n` below 2, computed with fuel `fuel ≥ n`. -/
def log2Aux : Nat → Nat → Nat
  | 0, _ => 0
  | fuel + 1, n => if n < 2 then 0 else log2Aux fuel (n / 2) + 1

/-- Largest `e` with `2 ^ e ≤ n`, for `n > 0`. -/
def ilog2 (n : Nat) : Nat := log2Aux n n

/-- Largest `e` with `2 ^ e ≤ n / d`, for the positive fraction `n / d`. -/
def floorLog2 (n d : Nat) : Int :=
  if d ≤ n then (ilog2 (n / d) : Int)
  else -((ilog2 ((d + n - 1) / n - 1) + 1 : Nat) : Int)

/-- The largest finite binary32 value, `(2 ^ 24 - 1) * 2 ^ 104`. -/
def FLT_MAX : Nat := 340282346638528859811704183484516925440

/-- Rounding of the non-negative fraction `n / d` to the nearest binary32 magnitude, ties
to even: a 24-bit significand `m` at the exponent `e` of the fraction, but not below the
least normal exponent -126, gives `m * 2 ^ (e - 23)`.  The flag is false when the rounded
value exceeds the largest finite one, which is then returned. -/
def roundMag (n d : Nat) : FloatVal × Bool :=
  if n = 0 then (⟨0, 0⟩, true)
  else
    let e : Int := max (floorLog2 n d) (-126)
    let a : Nat := if e ≤ 23 then n * 2 ^ (23 - e).toNat else n
    let b : Nat := if e ≤ 23 then d else d * 2 ^ (e - 23).toNat
    let f : Nat := a / b
    let r : Nat := a % b
    let m : Nat :=
      if 2 * r < b then f
      else if b < 2 * r then f + 1
      else if f % 2 = 0 then f else f + 1
    if e ≤ 23 then (FloatVal.reduce m (23 - e).toNat, true)
    else if FLT_MAX < m * 2 ^ (e - 23).toNat then (⟨FLT_MAX, 0⟩, false)
    else (⟨m * 2 ^ (e - 23).toNat, 0⟩, true)

/-- The conversion of an accepted decimal field to `float`: `neg` the sign, `mant` all the
mantissa digits, `frac` how many of them follow the decimal point, `ex` the exponent; the
decimal value is `mant * 10 ^ (ex - frac)`.  The flag is false on overflow. -/
def toFloat (neg : Bool) (mant : Nat) (frac : Nat) (ex : Int) : FloatVal × Bool :=
  let x : Int := ex - frac
  let r := if 0 ≤ x then roundMag (mant * 10 ^ x.toNat) 1 else roundMag mant (10 ^ (-x).toNat)
  (if neg then r.1.neg else r.1, r.2)

/-- The next character of `l` is `c`. -/
def startsWith1 (c : Char) (l : List Char) : Bool := l.head? == some c

/-- The extraction `is >> x` into a `float`.  The field accepted is an optional sign,
digits with at most one decimal point and, after at least one digit, an exponent letter
with an optional sign and digits.  A field without a mantissa digit, or with an exponent
letter and no exponent digit, does not convert: the result is 0 and the stream fails. -/
def getFloat (s : IStream) (old : FloatVal) : FloatVal × IStream :=
  if s.ok then
    match skipWs s.buf with
    | [] => (old, ⟨[], false⟩)
    | c :: cs =>
      let sg := takeSign (c :: cs)
      let ip := sg.2.takeWhile isDigit
      let r1 := sg.2.dropWhile isDigit
      let hasDot : Bool := startsWith1 '.' r1
      let r2 := if hasDot then r1.tail else r1
      let fp := if hasDot then r2.takeWhile isDigit else []
      let r3 := if hasDot then r2.dropWhile isDigit else r2
      let hasExp : Bool := !(ip ++ fp).isEmpty && (startsWith1 'e' r3 || startsWith1 'E' r3)
      let es := if hasExp then takeSign r3.tail else (false, r3)
      let ep := if hasExp then es.2.takeWhile isDigit else []
      let r4 := if hasExp then es.2.dropWhile isDigit else r3
      if (ip ++ fp).isEmpty || (hasExp && ep.isEmpty) then (⟨0, 0⟩, ⟨r4, false⟩)
      else
        let ex : Int := if es.1 then -(digitsVal ep : Int) else (digitsVal ep : Int)
        let v := toFloat sg.1 (digitsVal (ip ++ fp)) fp.length ex
        (v.1, ⟨r4, v.2⟩)
  else (old, s)

end Stream

open Stream

namespace UCIReceiver

/-- The arguments `Line(eval, depth, moves, isMat)` a `Line` is built from. -/
structure Line where
  eval : FloatVal
  depth : Int
  moves : List (List Char)
  mate : Bool
deriving DecidableEq, Repr

/-- A call made on the `MatFinder` collaborator. -/
inductive Call where
  | signalReadyok
  | signalBestmove (bm : List Char)
  | updateThinktime (t : Int)
  | updateNps (n : Int)
  | updateLine (index : Int) (line : Line)
deriving DecidableEq, Repr

/-- The local variables of `info`, together with the calls made so far. -/
structure InfoState where
  token : List Char
  readLine : Bool
  eval : Bool
  curDepth : Int
  curNps : Int
  curThinktime : Int
  curEval : FloatVal
  curIsMat : Bool
  curMoves : List (List Char)
  curLineId : Int
  calls : List Call
deriving DecidableEq, Repr

/-- The values the locals of `info` are declared with. -/
def InfoState.init : InfoState :=
  { token := [], readLine := false, eval := false, curDepth := 0, curNps := 0,
    curThinktime := 0, curEval := ⟨0, 0⟩, curIsMat := false, curMoves := [],
    curLineId := 0, calls := [] }

/-- The inner loop `while (is >> token) curMoves.push_back(token);`, at most `fuel`
tests of its condition.  Returns the stream, `token` and `curMoves` on exit. -/
def readMoves : Nat → IStream → List Char → List (List Char) →
    Option (IStream × List Char × List (List Char))
  | 0, _, _, _ => none
  | fuel + 1, s, token, moves =>
    let r := getToken s token
    if r.2.ok then readMoves fuel r.2 r.1 (moves ++ [r.1])
    else some (r.2, r.1, moves)

/-- The loop `while (is >> token) ...` of `info`, at most `fuel` tests of its condition.
Returns the locals on exit. -/
def infoLoop : Nat → IStream → InfoState → Option InfoState
  | 0, _, _ => none
  | fuel + 1, s, st =>
    let r := getToken s st.token
    let s := r.2
    let st := { st with token := r.1 }
    if !s.ok then some st
    else if st.token = "depth".toList then
      let d := getInt s st.curDepth
      infoLoop fuel d.2 { st with curDepth := d.1 }
    else if st.token = "seldepth".toList then infoLoop fuel s st
    else if st.token = "time".toList then
      let t := getInt s st.curThinktime
      infoLoop fuel t.2
        { st with curThinktime := t.1, calls := st.calls ++ [Call.updateThinktime t.1] }
    else if st.token = "nodes".toList then infoLoop fuel s st
    else if st.token = "pv".toList then
      (readMoves fuel s st.token st.curMoves).bind (fun m =>
        infoLoop fuel m.1 { st with readLine := true, token := m.2.1, curMoves := m.2.2 })
    else if st.token = "multipv".toList then
      let i := getInt s st.curLineId
      infoLoop fuel i.2 { st with curLineId := i.1 }
    else if st.token = "score".toList then
      let k := getToken s st.token
      if k.1 = "mate".toList then
        let v := getFloat k.2 st.curEval
        infoLoop fuel v.2 { st with eval := true, token := k.1, curIsMat := true, curEval := v.1 }
      else if k.1 = "cp".toList then
        let v := getFloat k.2 st.curEval
        infoLoop fuel v.2 { st with eval := true, token := k.1, curEval := v.1 }
      else infoLoop fuel k.2 { st with eval := true, token := k.1 }
    else if st.token = "currmove".toList then infoLoop fuel s st
    else if st.token = "currmovenumber".toList then infoLoop fuel s st
    else if st.token = "hashfull".toList then
      let k := getToken s st.token
      infoLoop fuel k.2 { st with token := k.1 }
    else if st.token = "nps".toList then
      let n := getInt s st.curNps
      infoLoop fuel n.2 { st with curNps := n.1, calls := st.calls ++ [Call.updateNps n.1] }
    else if st.token = "tbhits".toList then infoLoop fuel s st
    else if st.token = "cpuload".toList then infoLoop fuel s st
    else if st.token = "string".toList then infoLoop fuel s st
    else if st.token = "refutation".toList then infoLoop fuel s st
    else if st.token = "currline".toList then infoLoop fuel s st
    else infoLoop fuel s st

/-- The statements of `info` after its loop: the calls made when the loop leaves the
locals `st`.  The index `curLineId - 1` is an `int`. -/
def infoFinish (st : InfoState) : List Call :=
  if st.readLine then
    if !st.eval || st.curMoves.isEmpty || st.curLineId == 0 then st.calls
    else
      st.calls ++ [Call.updateLine (wrapInt (st.curLineId - 1))
        ⟨st.curEval, st.curDepth, st.curMoves, st.curIsMat⟩]
  else st.calls

/-- The function `UCIReceiver::info`: the calls it makes on the rest of the line.  The
loop is given one test more than there are characters left, which it cannot exhaust. -/
def info (s : IStream) : Option (List Call) :=
  (infoLoop (s.buf.length + 1) s InfoState.init).map infoFinish

/-- The function `UCIReceiver::readyok`. -/
def readyok (_s : IStream) : List Call := [Call.signalReadyok]

/-- The function `UCIReceiver::option`. -/
def option (_s : IStream) : List Call := []

/-- The function `UCIReceiver::bestmove`: `bm` is empty when no token is left. -/
def bestmove (s : IStream) : List Call := [Call.signalBestmove (getToken s []).1]

/-- The function `UCIReceiver::parseMessage`: the calls made for one line of engine
output, `none` if the loop of `info` were cut short. -/
def parseMessage (msg : List Char) : Option (List Call) :=
  let r := getToken (IStream.ofString msg) []
  if r.1 = "id".toList then some []
  else if r.1 = "uciok".toList then some []
  else if r.1 = "bestmove".toList then some (bestmove r.2)
  else if r.1 = "readyok".toList then some (readyok r.2)
  else if r.1 = "info".toList then info r.2
  else if r.1 = "option".toList then some (option r.2)
  else some []

/-- The engine output as the receiver reads it: the characters written by the engine
before it closes the stream and not read so far. -/
structure LineStream where
  buf : List Char
deriving DecidableEq, Repr

/-- The fatal events of the receive loop. -/
inductive StreamFailure where
  | Closed
deriving DecidableEq, Repr

/-- The call `getline(*input_, str)`; `str` is its previous content.
Modelled from the spec: `InputStream` is declared in `Stream.h`, which is not part of the
sources.  By the spec the receiver reads one line at a time from a line-oriented input
stream, and stream closure is fatal to the receive loop.  So `getline` gives the
characters up to and without the next newline, which it consumes, or the characters
left when the stream was closed in the middle of a line; where the stream was closed and
nothing is left to read, it does not return and the closure is raised. -/
def getline (s : LineStream) (_str : List Char) :
    Except StreamFailure (LineStream × List Char) :=
  if s.buf.isEmpty then Except.error StreamFailure.Closed
  else
    match s.buf.dropWhile (fun c => c != '\n') with
    | _ :: rest => Except.ok (⟨rest⟩, s.buf.takeWhile (fun c => c != '\n'))
    | [] => Except.ok (⟨[]⟩, s.buf)

/-- The state of `run` between two passes of its loop: the input stream, the variable
`str`, and the lines handed to `parseMessage` so far, in order. -/
structure RunState (σ : Type) where
  input : σ
  str : List Char
  dispatched : List (List Char)

/-- One pass of the loop of `run`: `getline((*input_), str); parseMessage(str);`, for an
input stream of any kind, given with its `getline`.  Where `getline` raises a fatal event,
`parseMessage` is not called. -/
def runPass {σ ε : Type} (gl : σ → List Char → Except ε (σ × List Char)) (r : RunState σ) :
    Except ε (RunState σ) :=
  match gl r.input r.str with
  | Except.error e => Except.error e
  | Except.ok p => Except.ok ⟨p.1, p.2, r.dispatched ++ [p.2]⟩

/-- The function `UCIReceiver::run`, with at most `fuel` passes of its loop
`while (true)`.  The loop has no test and no `break` or `return`: it is left only by a
fatal event raised in `getline`, and the result is that event with the state in which it
was raised; `none` if the loop has not been left within `fuel` passes. -/
def run {σ ε : Type} (gl : σ → List Char → Except ε (σ × List Char)) : Nat → RunState σ →
    Option (ε × RunState σ)
  | 0, _ => none
  | fuel + 1, r =>
    match runPass gl r with
    | Except.error e => some (e, r)
    | Except.ok r1 => run gl fuel r1

/-- The state of `run` at its start, on the input `input`. -/
def RunState.start {σ : Type} (input : σ) : RunState σ := ⟨input, [], []⟩

end UCIReceiver

namespace Board

inductive Side where
  | WHITE
  | BLACK
deriving DecidableEq, Repr

inductive Kind where
  | PAWN
  | KNIGHT
  | BISHOP
  | ROOK
  | QUEEN
  | KING
deriving DecidableEq, Repr

/-- The hard errors of the board model, one for each message given to
`Utils::handleError`: "Invalid rank when creating square", "There is a already a piece on
our square", "Piece is already promoted", "Error parsing playfor side". -/
inductive HardError where
  | InvalidRank
  | OccupiedSquare
  | AlreadyPromoted
  | ParseError
deriving DecidableEq, Repr

/-- Modelled from the spec: `Utils::handleError` is declared in `Utils.h`, which is not
part of the sources.  By the spec a hard failure aborts the current operation
immediately, so a call of `handleError` ends the operation with the error. -/
def handleError {α : Type} (e : HardError) : Except HardError α := Except.error e

/-- Outcome of a member function on an object of state `σ`: the state on return, or the
error given to `handleError` with the state the object had at that point. -/
inductive Outcome (σ : Type) where
  | done (s : σ)
  | failed (e : HardError) (s : σ)
deriving DecidableEq, Repr

abbrev File := Nat

abbrev Rank := Int

/-- A `Square`: its members `file_`, `rank_` and `piece_` (a handle of the piece held,
or none for a null pointer). -/
structure Square where
  file_ : File
  rank_ : Rank
  piece_ : Option Nat
deriving DecidableEq, Repr

/-- The constructor `Square::Square(File, Rank)`. -/
def Square.Square₂ (file : File) (rank : Rank) : Except HardError Square :=
  if rank < 1 || rank > 8 then handleError HardError.InvalidRank
  else Except.ok ⟨file, rank, none⟩

/-- The constructor `Square::Square(File, Rank, Piece *)`: it stores the piece and then
builds a temporary `Square(file, rank)`, whose rank check is the only one made. -/
def Square.Square₃ (file : File) (rank : Rank) (piece : Option Nat) :
    Except HardError Square :=
  match Square.Square₂ file rank with
  | Except.error e => Except.error e
  | Except.ok _ => Except.ok ⟨file, rank, piece⟩

/-- A `Piece`: its members `kind_`, `color_`, `promoted_` and `square_` (a handle of its
square, or none for a null pointer). -/
structure Piece where
  kind_ : Kind
  color_ : Side
  promoted_ : Kind
  square_ : Option Nat
deriving DecidableEq, Repr

/-- The constructor `Piece::Piece(Kind, Side)`.
Modelled from the spec: the initial values of `promoted_` and `square_` are given in
`Board.h`, which is not part of the sources.  By the spec the piece starts on no square
and with no promotion in effect, for which the value `KING` of `promoted_` stands. -/
def Piece.Piece₂ (kind : Kind) (color : Side) : Piece := ⟨kind, color, Kind.KING, none⟩

/-- The function `Piece::getKind`. -/
def Piece.getKind (p : Piece) : Kind :=
  if p.promoted_ = Kind.KING then p.kind_ else p.promoted_

/-- The function `Piece::promoteTo`. -/
def Piece.promoteTo (p : Piece) (kind : Kind) : Outcome Piece :=
  if p.promoted_ = Kind.KING then Outcome.done { p with promoted_ := kind }
  else Outcome.failed HardError.AlreadyPromoted p

/-- The function `Piece::unpromote`. -/
def Piece.unpromote (p : Piece) : Piece := { p with promoted_ := Kind.KING }

/-- The character `mv[i]` of a string. -/
def charAt (mv : List Char) (i : Nat) : Char := mv.getD i '\x00'

/-- The function `Board::checkMove`. -/
def checkMove (mv : List Char) : Bool :=
  if mv.length < 4 || mv.length > 5
      || charAt mv 0 > 'h' || charAt mv 0 < 'a'
      || charAt mv 1 > '8' || charAt mv 1 < '1'
      || charAt mv 2 > 'h' || charAt mv 2 < 'a'
      || charAt mv 3 > '8' || charAt mv 3 < '1' then false
  else if mv.length == 5 && (
      charAt mv 4 != 'q' || charAt mv 4 != 'n'
      || charAt mv 4 != 'b' || charAt mv 4 != 'r') then false
  else true

/-- The move string format of the spec, `[a-h][1-8][a-h][1-8][qnbr]?`. -/
def matchesMoveFormat (s : List Char) : Bool :=
  match s with
  | [f1, r1, f2, r2] =>
    decide ('a' ≤ f1 ∧ f1 ≤ 'h' ∧ '1' ≤ r1 ∧ r1 ≤ '8' ∧ 'a' ≤ f2 ∧ f2 ≤ 'h' ∧ '1' ≤ r2 ∧ r2 ≤ '8')
  | [f1, r1, f2, r2, p] =>
    decide ('a' ≤ f1 ∧ f1 ≤ 'h' ∧ '1' ≤ r1 ∧ r1 ≤ '8' ∧ 'a' ≤ f2 ∧ f2 ≤ 'h' ∧ '1' ≤ r2 ∧ r2 ≤ '8')
      && (p == 'q' || p == 'n' || p == 'b' || p == 'r')
  | _ => false

/-- The objects of a board, by handle: a pointer to a square or to a piece is its handle,
a null pointer is `none`. -/
structure BoardState where
  squares : Nat → Square
  pieces : Nat → Piece

/-- The assignment `piece_ = piece` in the square of handle `s`. -/
def BoardState.setPiece (h : BoardState) (s : Nat) (piece : Option Nat) : BoardState :=
  { h with squares := Function.update h.squares s { h.squares s with piece_ := piece } }

/-- The assignment `square_ = square` in the piece of handle `p`. -/
def BoardState.setSquare (h : BoardState) (p : Nat) (square : Option Nat) : BoardState :=
  { h with pieces := Function.update h.pieces p { h.pieces p with square_ := square } }

/-- The function `Square::changePiece`, called on the square of handle `s`. -/
def Square.changePiece (h : BoardState) (s : Nat) (newPiece : Option Nat) :
    Outcome BoardState :=
  if newPiece = (h.squares s).piece_ then Outcome.done h
  else if newPiece.isSome && (h.squares s).piece_.isSome then
    Outcome.failed HardError.OccupiedSquare h
  else Outcome.done (h.setPiece s newPiece)

/-- The statements of `Piece::moveTo` that follow the vacating of the former square: the
assignment `square_ = newSquare` and, for a square, the call `square_->changePiece(this)`. -/
def Piece.attach (h : BoardState) (p : Nat) (newSquare : Option Nat) : Outcome BoardState :=
  match newSquare with
  | some b => Square.changePiece (h.setSquare p newSquare) b (some p)
  | none => Outcome.done (h.setSquare p newSquare)

/-- The function `Piece::moveTo`, called on the piece of handle `p`. -/
def Piece.moveTo (h : BoardState) (p : Nat) (newSquare : Option Nat) : Outcome BoardState :=
  if (h.pieces p).square_ = newSquare then Outcome.done h
  else
    match (h.pieces p).square_ with
    | some a =>
      match Square.changePiece h a none with
      | Outcome.done h1 => Piece.attach h1 p newSquare
      | Outcome.failed e h1 => Outcome.failed e h1
    | none => Piece.attach h p newSquare

/-- The constructor `Piece::Piece(Kind, Side)` run for a new piece of handle `n`. -/
def Piece.new₂ (h : BoardState) (n : Nat) (kind : Kind) (color : Side) : BoardState :=
  { h with pieces := Function.update h.pieces n (Piece.Piece₂ kind color) }

/-- The constructor `Piece::Piece(Kind, Side, Square *)` run for a new piece of handle
`n`. -/
def Piece.new₃ (h : BoardState) (n : Nat) (kind : Kind) (color : Side)
    (square : Option Nat) : Outcome BoardState :=
  if square.isSome then Piece.moveTo (Piece.new₂ h n kind color) n square
  else Outcome.done (Piece.new₂ h n kind color)

/-- The function `Board::getSideFromString`. -/
def getSideFromString (sidestr : List Char) : Except HardError Side :=
  if sidestr = "w".toList || sidestr = "white".toList then Except.ok Side.WHITE
  else if sidestr = "b".toList || sidestr = "black".toList then Except.ok Side.BLACK
  else
    match (handleError HardError.ParseError : Except HardError Unit) with
    | Except.error e => Except.error e
    | Except.ok _ => Except.ok Side.WHITE

/-- The states of a board with `n` pieces constructed so far (handles `0 .. n - 1`):
from a board of empty squares, by the two constructors of `Piece` and by `moveTo` calls
that return. -/
inductive Reachable : Nat → BoardState → Prop where
  | empty (h : BoardState) (hempty : ∀ s, (h.squares s).piece_ = none) : Reachable 0 h
  | piece₂ {n : Nat} {h : BoardState} (kind : Kind) (color : Side) (hr : Reachable n h) :
      Reachable (n + 1) (Piece.new₂ h n kind color)
  | piece₃ {n : Nat} {h h' : BoardState} (kind : Kind) (color : Side) (square : Option Nat)
      (hr : Reachable n h) (hc : Piece.new₃ h n kind color square = Outcome.done h') :
      Reachable (n + 1) h'
  | moveTo {n : Nat} {h h' : BoardState} (p : Nat) (t : Option Nat) (hr : Reachable n h)
      (hp : p < n) (hm : Piece.moveTo h p t = Outcome.done h') : Reachable n h'

/-- Link consistency of a board with `n` pieces: a square holds the piece `p` if and only
if `p` is one of the pieces and its back-reference is that square. -/
def Linked (n : Nat) (h : BoardState) : Prop :=
  ∀ s p, (h.squares s).piece_ = some p ↔ (p < n ∧ (h.pieces p).square_ = some s)

/-- A board of empty squares, the square `(file, rank)` at handle `8 * (rank - 1) + file`;
its piece storage is not yet used. -/
def emptyBoard : BoardState :=
  { squares := fun s => { file_ := s % 8, rank_ := Int.ofNat (s / 8) + 1, piece_ := none },
    pieces := fun _ => Piece.Piece₂ Kind.PAWN Side.WHITE }

/-- The handle `i` itself for `i < 2`, none otherwise. -/
def firstTwo (i : Nat) : Option Nat := if i < 2 then some i else none

/-- A board with two pawns: the piece 0 on the square 0 and the piece 1 on the square 1. -/
def twoPawns : BoardState :=
  { squares := fun s =>
      { file_ := s % 8, rank_ := Int.ofNat (s / 8) + 1, piece_ := firstTwo s },
    pieces := fun p =>
      { kind_ := Kind.PAWN, color_ := Side.WHITE, promoted_ := Kind.KING,
        square_ := firstTwo p } }

/-- The board after the piece `p` has left its square, if it stood on one. -/
def vacated (h : BoardState) (p : Nat) : BoardState :=
  match (h.pieces p).square_ with
  | some a => h.setPiece a none
  | none => h

end Board

open UCIReceiver

/-! ## Well-formed engine lines

The lines the theorems below speak about are described independently of the parser:
tokens, separators, the decimal text of integers, and the fields of an `info` line. -/

namespace Wire

/-- A run of white space (possibly empty). -/
def isWs (w : List Char) : Bool := w.all isSpace

/-- A separator: a non-empty run of white space. -/
def isSep (w : List Char) : Bool := !w.isEmpty && isWs w

/-- A token: a non-empty run of characters none of which is white space. -/
def isTok (t : List Char) : Bool := !t.isEmpty && t.all (fun c => !isSpace c)

/-- The text `r` is empty or starts with white space, so a token can end before it. -/
def atBoundary (r : List Char) : Bool :=
  match r with
  | [] => true
  | c :: _ => isSpace c

/-- Decimal text of a natural number. -/
def natText (n : Nat) : List Char := Nat.toDigits 10 n

/-- Decimal text of an integer. -/
def intText (v : Int) : List Char :=
  if v < 0 then '-' :: natText v.natAbs else natText v.natAbs

/-- The value fits in an `int`. -/
def inInt (v : Int) : Bool := decide (INT_MIN ≤ v ∧ v ≤ INT_MAX)

/-- The integer is exactly representable as a `float`: magnitude at most `2 ^ 24`. -/
def exactFloat (v : Int) : Bool := decide (-16777216 ≤ v ∧ v ≤ 16777216)

/-- The key words on which the loop of `info` acts. -/
def acting : List (List Char) :=
  ["depth".toList, "time".toList, "pv".toList, "multipv".toList, "score".toList,
   "hashfull".toList, "nps".toList]

/-- A field of an `info` line before its `pv` field.  `ignored` is any run of tokens on
which the parser takes no action: the dropped key words (`seldepth`, `nodes`, ...) with
their arguments, and unknown tokens. -/
inductive Field where
  | depth (d : Int)
  | multipv (i : Int)
  | scoreCp (v : Int)
  | scoreMate (v : Int)
  | time (t : Int)
  | nps (n : Int)
  | hashfull (arg : List Char)
  | ignored (toks : List (List Char))
deriving DecidableEq, Repr

/-- Well-formed fields: `int` arguments fit in an `int`, scores are exactly representable,
the argument of `hashfull` is a token, ignored tokens are tokens other than the acting
key words. -/
def Field.wf : Field → Bool
  | Field.depth d => inInt d
  | Field.multipv i => inInt i
  | Field.scoreCp v => exactFloat v
  | Field.scoreMate v => exactFloat v
  | Field.time t => inInt t
  | Field.nps n => inInt n
  | Field.hashfull arg => isTok arg
  | Field.ignored toks => toks.all (fun t => isTok t && !acting.contains t)

/-- The tokens a field is written with. -/
def Field.tokens : Field → List (List Char)
  | Field.depth d => ["depth".toList, intText d]
  | Field.multipv i => ["multipv".toList, intText i]
  | Field.scoreCp v => ["score".toList, "cp".toList, intText v]
  | Field.scoreMate v => ["score".toList, "mate".toList, intText v]
  | Field.time t => ["time".toList, intText t]
  | Field.nps n => ["nps".toList, intText n]
  | Field.hashfull arg => ["hashfull".toList, arg]
  | Field.ignored toks => toks

/-- The text of a token sequence, each token preceded by the separator `sep`. -/
def joinToks (sep : List Char) : List (List Char) → List Char
  | [] => []
  | t :: ts => sep ++ (t ++ joinToks sep ts)

/-- The text of a field sequence. -/
def fieldsText (sep : List Char) : List Field → List Char
  | [] => []
  | f :: fs => joinToks sep f.tokens ++ fieldsText sep fs

/-- The `time` and `nps` calls of a field sequence, in order. -/
def timeNpsCalls : List Field → List Call
  | [] => []
  | Field.time t :: fs => Call.updateThinktime t :: timeNpsCalls fs
  | Field.nps n :: fs => Call.updateNps n :: timeNpsCalls fs
  | _ :: fs => timeNpsCalls fs

/-- The call is an `updateLine`. -/
def isUpdateLine : Call → Bool
  | Call.updateLine _ _ => true
  | _ => false

/-- The field is a `score` field. -/
def Field.isScore : Field → Bool
  | Field.scoreCp _ => true
  | Field.scoreMate _ => true
  | _ => false

/-- What the loop of `info` does to its locals over one well-formed field. -/
def Field.effect (st : InfoState) : Field → InfoState
  | Field.depth d => { st with token := "depth".toList, curDepth := d }
  | Field.multipv i => { st with token := "multipv".toList, curLineId := i }
  | Field.scoreCp v =>
    { st with token := "cp".toList, eval := true, curEval := FloatVal.ofInt v }
  | Field.scoreMate v =>
    { st with token := "mate".toList, eval := true, curIsMat := true,
              curEval := FloatVal.ofInt v }
  | Field.time t =>
    { st with token := "time".toList, curThinktime := t,
              calls := st.calls ++ [Call.updateThinktime t] }
  | Field.nps n =>
    { st with token := "nps".toList, curNps := n, calls := st.calls ++ [Call.updateNps n] }
  | Field.hashfull arg => { st with token := arg }
  | Field.ignored toks => { st with token := toks.getLast?.getD st.token }

/-- How many times the loop of `info` tests its condition over one field. -/
def Field.cost : Field → Nat
  | Field.ignored toks => toks.length
  | _ => 1

/-- The total for a field sequence. -/
def fieldsCost : List Field → Nat
  | [] => 0
  | f :: fs => f.cost + fieldsCost fs

/-- A number of loop tests that suffices from the stream state `s`: one for each unread
character and one for the failing test that ends the loop. -/
def fuelNeeded (s : IStream) : Nat := if s.ok then s.buf.length + 1 else 1

/-- What holds between the locals `st` of `info` at a test of its loop, with `b` the
unread text, and the locals `r` on exit: only `time` and `nps` calls were added, and a
flag or the slot id changed only if its key word occurs in `b`. -/
def LoopInv (b : List Char) (st r : InfoState) : Prop :=
  (∃ extra, r.calls = st.calls ++ extra ∧ ∀ c ∈ extra, isUpdateLine c = false) ∧
  (r.readLine = true → st.readLine = true ∨ "pv".toList <:+: b) ∧
  (r.eval = true → st.eval = true ∨ "score".toList <:+: b) ∧
  (r.curLineId ≠ 0 → st.curLineId ≠ 0 ∨ "multipv".toList <:+: b)

/-- The text of a `pv` field with its moves, followed by the white space `trail`. -/
def pvText (sep : List Char) (moves : List (List Char)) (trail : List Char) : List Char :=
  sep ++ ("pv".toList ++ (joinToks sep moves ++ trail))

/-- The locals of `info` after a sequence of well-formed fields. -/
def afterFields (fs : List Field) : InfoState := fs.foldl Field.effect InfoState.init

/-- The locals of `info` after the `pv` field with the moves `moves`. -/
def afterPv (st : InfoState) (moves : List (List Char)) : InfoState :=
  { st with readLine := true, token := moves.getLast?.getD "pv".toList,
            curMoves := st.curMoves ++ moves }

/-- The field is a `score mate` field. -/
def Field.isScoreMate : Field → Bool
  | Field.scoreMate _ => true
  | _ => false

/-- The score field of kind `mate` (true) or `cp` (false) and value `v`. -/
def Field.score (mate : Bool) (v : Int) : Field :=
  if mate then Field.scoreMate v else Field.scoreCp v

/-- The text of a sequence of lines, each ended by a newline. -/
def linesText : List (List Char) → List Char
  | [] => []
  | l :: ls => l ++ '\n' :: linesText ls

/-- A line of text: no newline in it. -/
def isLine (l : List Char) : Bool := l.all (fun c => c != '\n')

/-- The field is one on which the parser takes no action but to read its tokens. -/
def Field.isPassive : Field → Bool
  | Field.ignored _ => true
  | Field.hashfull _ => true
  | _ => false

/-- The locals of `info` with `token` left out of account. -/
def dropToken (st : InfoState) : InfoState := { st with token := [] }

end Wire

open Wire

/-! ## Lemmas on the stream model and on the loop of `info` -/

section StreamLemmas

theorem takeWhile_append_stop {p : Char → Bool} (l r : List Char)
    (hl : ∀ x ∈ l, p x = true) (hr : ∀ x ∈ r.head?, p x = false) :
    (l ++ r).takeWhile p = l ∧ (l ++ r).dropWhile p = r := by
  induction l with
  | nil =>
    cases r with
    | nil => simp
    | cons c cs =>
      have : p c = false := hr c (by simp)
      simp [List.takeWhile, List.dropWhile, this]
  | cons a l ih =>
    have ha : p a = true := hl a (by simp)
    have := ih (fun x hx => hl x (by simp [hx]))
    simp [List.takeWhile, List.dropWhile, ha, this]

theorem isWs_iff (w : List Char) : isWs w = true ↔ ∀ c ∈ w, isSpace c = true := by
  simp [isWs, List.all_eq_true]

theorem isTok_iff (t : List Char) :
    isTok t = true ↔ t ≠ [] ∧ ∀ c ∈ t, isSpace c = false := by
  cases t <;> simp [isTok, List.all_eq_true]

theorem isSep_iff (w : List Char) : isSep w = true ↔ w ≠ [] ∧ isWs w = true := by
  cases w <;> simp [isSep]

theorem atBoundary_iff (r : List Char) :
    atBoundary r = true ↔ ∀ c ∈ r.head?, isSpace c = true := by
  cases r <;> simp [atBoundary]

theorem atBoundary_sep_append {sep : List Char} (h : isSep sep = true) (r : List Char) :
    atBoundary (sep ++ r) = true := by
  obtain ⟨hne, hws⟩ := (isSep_iff sep).1 h
  cases sep with
  | nil => exact absurd rfl hne
  | cons c cs => exact (isWs_iff _).1 hws c (by simp)

theorem isWs_of_isSep {sep : List Char} (h : isSep sep = true) : isWs sep = true :=
  ((isSep_iff sep).1 h).2

/-- White space followed by text that does not start with white space is skipped exactly. -/
theorem skipWs_append {ws r : List Char} (hws : isWs ws = true)
    (hr : ∀ c ∈ r.head?, isSpace c = false) : skipWs (ws ++ r) = r :=
  (takeWhile_append_stop ws r ((isWs_iff ws).1 hws) hr).2

theorem skipWs_ws {ws : List Char} (hws : isWs ws = true) : skipWs ws = [] := by
  have := skipWs_append (r := []) hws (by simp)
  simpa using this

theorem head_tok_append {t : List Char} (ht : isTok t = true) (r : List Char) :
    ∀ c ∈ (t ++ r).head?, isSpace c = false := by
  obtain ⟨hne, hall⟩ := (isTok_iff t).1 ht
  cases t with
  | nil => exact absurd rfl hne
  | cons a l => intro c hc; simp at hc; subst hc; exact hall _ (by simp)

/-- Extraction of a string yields the next token and stops before the text after it. -/
theorem getToken_tok (ws t rest old : List Char) (hws : isWs ws = true)
    (ht : isTok t = true) (hrest : atBoundary rest = true) :
    getToken ⟨ws ++ (t ++ rest), true⟩ old = (t, ⟨rest, true⟩) := by
  obtain ⟨hne, hall⟩ := (isTok_iff t).1 ht
  have hskip := skipWs_append (r := t ++ rest) hws (head_tok_append ht rest)
  have hsplit := takeWhile_append_stop (p := fun x => !isSpace x) t rest
    (fun x hx => by simp [hall x hx])
    (fun x hx => by simp [(atBoundary_iff rest).1 hrest x hx])
  cases t with
  | nil => exact absurd rfl hne
  | cons a l =>
    simp only [getToken, hskip, if_true]
    simp only [List.cons_append] at hsplit ⊢
    simp only [hsplit.1, hsplit.2]

/-- Extraction of a string from a stream holding only white space fails. -/
theorem getToken_ws {ws : List Char} (old : List Char) (hws : isWs ws = true) :
    getToken ⟨ws, true⟩ old = (old, ⟨[], false⟩) := by
  simp [getToken, skipWs_ws hws]

theorem getToken_failed (b old : List Char) :
    getToken ⟨b, false⟩ old = (old, ⟨b, false⟩) := by
  simp [getToken]

end StreamLemmas

section Digits

theorem digitChar_spec : ∀ k, k < 10 →
    isDigit (Nat.digitChar k) = true ∧ digitVal (Nat.digitChar k) = k := by
  decide

theorem digitsVal_snoc (ds : List Char) (d : Char) :
    digitsVal (ds ++ [d]) = 10 * digitsVal ds + digitVal d := by
  simp [digitsVal, List.foldl_append]

theorem toDigitsCore_spec : ∀ (fuel n : Nat) (acc : List Char), n < fuel →
    ∃ ds, Nat.toDigitsCore 10 fuel n acc = ds ++ acc ∧ ds ≠ [] ∧
      (∀ c ∈ ds, isDigit c = true) ∧ digitsVal ds = n := by
  intro fuel
  induction fuel with
  | zero => intro n acc h; exact absurd h (Nat.not_lt_zero _)
  | succ fuel ih =>
    intro n acc h
    have hd := digitChar_spec (n % 10) (Nat.mod_lt _ (by decide))
    by_cases hq : n / 10 = 0
    · refine ⟨[Nat.digitChar (n % 10)], ?_, by simp, ?_, ?_⟩
      · simp [Nat.toDigitsCore, hq]
      · intro c hc; simp at hc; subst hc; exact hd.1
      · have hn : n % 10 = n := by omega
        have h2 := hd.2
        simp only [digitsVal, List.foldl, Nat.mul_zero, Nat.zero_add]
        rw [h2, hn]
    · have hlt : n / 10 < fuel := by omega
      obtain ⟨ds, h1, _, h3, h4⟩ := ih (n / 10) (Nat.digitChar (n % 10) :: acc) hlt
      refine ⟨ds ++ [Nat.digitChar (n % 10)], ?_, by simp, ?_, ?_⟩
      · simp [Nat.toDigitsCore, hq, h1]
      · intro c hc
        rcases List.mem_append.1 hc with hc | hc
        · exact h3 c hc
        · simp at hc; subst hc; exact hd.1
      · rw [digitsVal_snoc, h4, hd.2]; omega

theorem natText_spec (n : Nat) :
    natText n ≠ [] ∧ (∀ c ∈ natText n, isDigit c = true) ∧ digitsVal (natText n) = n := by
  obtain ⟨ds, h1, h2, h3, h4⟩ := toDigitsCore_spec (n + 1) n [] (Nat.lt_succ_self n)
  have : natText n = ds := by simpa [natText, Nat.toDigits] using h1
  rw [this]; exact ⟨h2, h3, h4⟩

theorem isDigit_not_space (c : Char) (h : isDigit c = true) : isSpace c = false := by
  have h1 : 48 ≤ c.toNat := by
    simp [isDigit] at h; exact h.1
  cases hs : isSpace c with
  | false => rfl
  | true =>
    simp [isSpace] at hs
    rcases hs with ((((h | h) | h) | h) | h) | h <;> · subst h; revert h1; decide

theorem isDigit_not_sign (c : Char) (h : isDigit c = true) : c ≠ '-' ∧ c ≠ '+' := by
  constructor <;> · rintro rfl; revert h; decide

/-- A sign is split off only when there is one. -/
theorem takeSign_digit (c : Char) (cs : List Char) (h : isDigit c = true) :
    takeSign (c :: cs) = (false, c :: cs) := by
  obtain ⟨h1, h2⟩ := isDigit_not_sign c h
  unfold takeSign
  split
  · rename_i heq; simp at heq; exact absurd heq.1 h1
  · rename_i heq; simp at heq; exact absurd heq.1 h2
  · rfl

theorem space_not_digit (c : Char) (h : isSpace c = true) : isDigit c = false := by
  cases hd : isDigit c with
  | false => rfl
  | true => rw [isDigit_not_space c hd] at h; exact absurd h (by simp)

theorem intText_isTok (v : Int) : isTok (intText v) = true := by
  obtain ⟨h1, h2, _⟩ := natText_spec v.natAbs
  rw [isTok_iff]
  unfold intText
  split
  · refine ⟨by simp, ?_⟩
    intro c hc
    simp at hc
    rcases hc with rfl | hc
    · decide
    · exact isDigit_not_space c (h2 c hc)
  · exact ⟨h1, fun c hc => isDigit_not_space c (h2 c hc)⟩

end Digits

section Numbers

theorem digits_split (ds rest : List Char) (hds : ∀ c ∈ ds, isDigit c = true)
    (hrest : atBoundary rest = true) :
    (ds ++ rest).takeWhile isDigit = ds ∧ (ds ++ rest).dropWhile isDigit = rest :=
  takeWhile_append_stop ds rest hds
    (fun c hc => space_not_digit c ((atBoundary_iff rest).1 hrest c hc))

/-- The sign, digits and rest found in front of the decimal text of an integer. -/
theorem takeSign_intText (v : Int) (rest : List Char) :
    takeSign (intText v ++ rest) = (decide (v < 0), natText v.natAbs ++ rest) := by
  obtain ⟨h1, h2, _⟩ := natText_spec v.natAbs
  unfold intText
  by_cases hv : v < 0
  · simp [hv, takeSign]
  · simp only [hv, if_false, decide_False]
    cases hn : natText v.natAbs with
    | nil => exact absurd hn h1
    | cons c cs =>
      have hc : isDigit c = true := h2 c (by simp [hn])
      simpa using takeSign_digit c (cs ++ rest) hc

theorem intText_append_ne_nil (v : Int) (rest : List Char) : intText v ++ rest ≠ [] := by
  have := (isTok_iff _).1 (intText_isTok v)
  simp [this.1]

/-- Extraction of an `int` from its decimal text, when the value fits in an `int`. -/
theorem getInt_text {ws rest : List Char} (v old : Int) (hws : isWs ws = true)
    (hv : inInt v = true) (hrest : atBoundary rest = true) :
    getInt ⟨ws ++ (intText v ++ rest), true⟩ old = (v, ⟨rest, true⟩) := by
  obtain ⟨h1, h2, h3⟩ := natText_spec v.natAbs
  have hskip := skipWs_append (r := intText v ++ rest) hws
    (head_tok_append (intText_isTok v) rest)
  obtain ⟨hd1, hd2⟩ := digits_split (natText v.natAbs) rest h2 hrest
  have hsg := takeSign_intText v rest
  simp only [inInt, INT_MIN, INT_MAX, decide_eq_true_eq] at hv
  cases hl : intText v ++ rest with
  | nil => exact absurd hl (intText_append_ne_nil v rest)
  | cons c cs =>
    rw [hl] at hskip hsg
    simp only [getInt, hskip, if_true, hsg, hd1, hd2, h3]
    have hne : (natText v.natAbs).isEmpty = false := by
      cases hn : natText v.natAbs with
      | nil => exact absurd hn h1
      | cons _ _ => rfl
    simp only [hne, INT_MAX, INT_MIN]
    by_cases hneg : v < 0
    · have : -((v.natAbs : Nat) : Int) = v := by omega
      simp only [hneg, decide_True, if_true, this, Bool.false_eq_true, if_false]
      rw [if_neg (by omega), if_neg (by omega)]
    · have : ((v.natAbs : Nat) : Int) = v := by omega
      simp only [hneg, decide_False, if_true, this, Bool.false_eq_true, if_false]
      rw [if_neg (by omega), if_neg (by omega)]

end Numbers

section Floats

theorem log2Aux_spec : ∀ (fuel n : Nat), n ≤ fuel → 0 < n →
    2 ^ log2Aux fuel n ≤ n ∧ n < 2 ^ (log2Aux fuel n + 1) := by
  intro fuel
  induction fuel with
  | zero => intro n h1 h2; omega
  | succ fuel ih =>
    intro n h1 h2
    by_cases hn : n < 2
    · simp [log2Aux, hn]; omega
    · obtain ⟨i1, i2⟩ := ih (n / 2) (by omega) (by omega)
      simp only [log2Aux, hn, if_false]
      constructor
      · rw [Nat.pow_succ]; omega
      · rw [Nat.pow_succ]; omega

theorem ilog2_spec (n : Nat) (h : 0 < n) : 2 ^ ilog2 n ≤ n ∧ n < 2 ^ (ilog2 n + 1) :=
  log2Aux_spec n n (Nat.le_refl n) h

theorem reduce_mul_pow (n k : Nat) : FloatVal.reduce (n * 2 ^ k) k = ⟨n, 0⟩ := by
  induction k with
  | zero => simp [FloatVal.reduce]
  | succ k ih =>
    have h0 : n * 2 ^ (k + 1) = n * 2 ^ k * 2 := by rw [Nat.pow_succ, Nat.mul_assoc]
    have h1 : n * 2 ^ (k + 1) % 2 = 0 := by rw [h0]; omega
    have h2 : n * 2 ^ (k + 1) / 2 = n * 2 ^ k := by rw [h0]; omega
    simp only [FloatVal.reduce, h1, if_true, h2, ih]

/-- Integers of magnitude at most `2 ^ 24` are not changed by rounding to binary32. -/
theorem roundMag_exact (n : Nat) (h : n ≤ 16777216) : roundMag n 1 = (⟨n, 0⟩, true) := by
  by_cases h0 : n = 0
  · subst h0; rfl
  · obtain ⟨l1, l2⟩ := ilog2_spec n (by omega)
    have hL : ilog2 n ≤ 24 := by
      by_contra hc
      have : 2 ^ 25 ≤ 2 ^ ilog2 n := Nat.pow_le_pow_right (by decide) (by omega)
      omega
    by_cases h24 : ilog2 n = 24
    · have hn : n = 16777216 := by rw [h24] at l1; omega
      subst hn; decide
    · have hfl : floorLog2 n 1 = (ilog2 n : Int) := by
        have : 1 ≤ n := by omega
        simp [floorLog2, this]
      have he : max ((ilog2 n : Nat) : Int) (-126) = (ilog2 n : Int) := by omega
      have hle : ((ilog2 n : Nat) : Int) ≤ 23 := by omega
      have htn : (23 - ((ilog2 n : Nat) : Int)).toNat = 23 - ilog2 n := by omega
      simp only [roundMag, h0, if_false, hfl, he, hle, if_true, htn, Nat.div_one, Nat.mod_one,
        Nat.mul_zero, Nat.zero_lt_one, reduce_mul_pow]

/-- An integer `FloatVal` stands for that integer. -/
theorem toRat_ofInt (v : Int) : (FloatVal.ofInt v).toRat = (v : ℚ) := by
  simp [FloatVal.ofInt, FloatVal.toRat]

/-- Beyond `2 ^ 24` not every integer is a `float`: 16777217 is read as 16777216. -/
theorem getFloat_rounds :
    getFloat ⟨"16777217".toList, true⟩ ⟨0, 0⟩ = (FloatVal.ofInt 16777216, ⟨[], true⟩) := by
  decide

/-- A value beyond the `int` range is clamped and makes the stream fail. -/
theorem getInt_overflow :
    getInt ⟨" 2147483648 5".toList, true⟩ 0 = (2147483647, ⟨" 5".toList, false⟩) := by
  decide

theorem toFloat_exact (neg : Bool) (n : Nat) (h : n ≤ 16777216) :
    toFloat neg n 0 0 = (if neg then ⟨-(n : Int), 0⟩ else ⟨n, 0⟩, true) := by
  simp [toFloat, roundMag_exact n h, FloatVal.neg]

theorem startsWith1_boundary (c : Char) (h : isSpace c = false) (rest : List Char)
    (hrest : atBoundary rest = true) : startsWith1 c rest = false := by
  cases rest with
  | nil => rfl
  | cons a cs =>
    have ha : isSpace a = true := hrest
    have : a ≠ c := by rintro rfl; rw [h] at ha; exact absurd ha (by simp)
    simp [startsWith1, this]

/-- Extraction of a `float` from the decimal text of an exactly representable integer. -/
theorem getFloat_text {ws rest : List Char} (v : Int) (old : FloatVal)
    (hws : isWs ws = true) (hv : exactFloat v = true) (hrest : atBoundary rest = true) :
    getFloat ⟨ws ++ (intText v ++ rest), true⟩ old = (FloatVal.ofInt v, ⟨rest, true⟩) := by
  obtain ⟨h1, h2, h3⟩ := natText_spec v.natAbs
  have hskip := skipWs_append (r := intText v ++ rest) hws
    (head_tok_append (intText_isTok v) rest)
  obtain ⟨hd1, hd2⟩ := digits_split (natText v.natAbs) rest h2 hrest
  have hsg := takeSign_intText v rest
  simp only [exactFloat, decide_eq_true_eq] at hv
  have hne : (natText v.natAbs).isEmpty = false := by
    cases hn : natText v.natAbs with
    | nil => exact absurd hn h1
    | cons _ _ => rfl
  have hdot := startsWith1_boundary '.' (by decide) rest hrest
  have hexp1 := startsWith1_boundary 'e' (by decide) rest hrest
  have hexp2 := startsWith1_boundary 'E' (by decide) rest hrest
  have hmag : v.natAbs ≤ 16777216 := by omega
  cases hl : intText v ++ rest with
  | nil => exact absurd hl (intText_append_ne_nil v rest)
  | cons c cs =>
    rw [hl] at hskip hsg
    simp only [getFloat, hskip, if_true, hsg, hd1, hd2, hdot, hexp1, hexp2, Bool.false_eq_true,
      if_false, List.append_nil, hne, Bool.not_false, Bool.and_false, Bool.or_false, h3,
      List.isEmpty_nil, List.length_nil, Bool.and_true]
    simp only [CharP.cast_eq_zero, Int.Nat.cast_ofNat_Int, digitsVal, List.foldl_nil, Nat.cast_zero,
      toFloat_exact _ _ hmag, FloatVal.ofInt]
    by_cases hneg : v < 0
    · have : -((v.natAbs : Nat) : Int) = v := by omega
      simp only [hneg, decide_True, if_true, this]
    · have : ((v.natAbs : Nat) : Int) = v := by omega
      simp only [hneg, decide_False, Bool.false_eq_true, if_false, this]

end Floats

section LoopLemmas

theorem atBoundary_of_isWs {w : List Char} (h : isWs w = true) : atBoundary w = true := by
  cases w with
  | nil => rfl
  | cons c cs => exact (isWs_iff _).1 h c (by simp)

theorem atBoundary_join_append {sep : List Char} (hsep : isSep sep = true)
    (ts : List (List Char)) {rest : List Char} (hrest : atBoundary rest = true) :
    atBoundary (joinToks sep ts ++ rest) = true := by
  cases ts with
  | nil => simpa [joinToks] using hrest
  | cons t ts =>
    simp only [joinToks, List.append_assoc]
    exact atBoundary_sep_append hsep _

/-- The inner loop of `pv` collects every remaining token and leaves the stream failed. -/
theorem readMoves_join {sep trail : List Char} (hsep : isSep sep = true)
    (htrail : isWs trail = true) :
    ∀ (moves : List (List Char)), (∀ m ∈ moves, isTok m = true) →
    ∀ (k : Nat) (tok : List Char) (acc : List (List Char)),
      readMoves (moves.length + 1 + k) ⟨joinToks sep moves ++ trail, true⟩ tok acc
        = some (⟨[], false⟩, moves.getLast?.getD tok, acc ++ moves) := by
  intro moves
  induction moves with
  | nil =>
    intro _ k tok acc
    have : 0 + 1 + k = k + 1 := by omega
    simp only [List.length_nil, this, readMoves, joinToks, List.nil_append,
      getToken_ws tok htrail]
    simp
  | cons m ms ih =>
    intro hm k tok acc
    have hb : atBoundary (joinToks sep ms ++ trail) = true :=
      atBoundary_join_append hsep ms (atBoundary_of_isWs htrail)
    have hg := getToken_tok sep m (joinToks sep ms ++ trail) tok
      (isWs_of_isSep hsep) (hm m (by simp)) hb
    have hf : (m :: ms).length + 1 + k = (ms.length + 1 + k) + 1 := by simp; omega
    have ht : joinToks sep (m :: ms) ++ trail = sep ++ (m ++ (joinToks sep ms ++ trail)) := by
      simp [joinToks, List.append_assoc]
    rw [hf, ht]
    simp only [readMoves, hg, if_true]
    rw [ih (fun x hx => hm x (by simp [hx])) k m (acc ++ [m])]
    cases ms with
    | nil => simp
    | cons a l =>
      have hl : (a :: l).getLast? = some ((a :: l).getLast (List.cons_ne_nil a l)) :=
        List.getLast?_eq_getLast _ _
      simp [hl]

end LoopLemmas

section Dispatch

variable (k : Nat) (s s1 : IStream) (st : InfoState)

theorem infoLoop_exit (h : (getToken s st.token).2.ok = false) :
    infoLoop (k + 1) s st = some { st with token := (getToken s st.token).1 } := by
  simp [infoLoop, h]

theorem infoLoop_depth (h : getToken s st.token = ("depth".toList, s1)) (hok : s1.ok = true) :
    infoLoop (k + 1) s st = infoLoop k (getInt s1 st.curDepth).2
      { st with token := "depth".toList, curDepth := (getInt s1 st.curDepth).1 } := by
  simp [infoLoop, h, hok]

theorem infoLoop_time (h : getToken s st.token = ("time".toList, s1)) (hok : s1.ok = true) :
    infoLoop (k + 1) s st = infoLoop k (getInt s1 st.curThinktime).2
      { st with token := "time".toList, curThinktime := (getInt s1 st.curThinktime).1,
                calls := st.calls ++ [Call.updateThinktime (getInt s1 st.curThinktime).1] } := by
  simp [infoLoop, h, hok]

theorem infoLoop_nps (h : getToken s st.token = ("nps".toList, s1)) (hok : s1.ok = true) :
    infoLoop (k + 1) s st = infoLoop k (getInt s1 st.curNps).2
      { st with token := "nps".toList, curNps := (getInt s1 st.curNps).1,
                calls := st.calls ++ [Call.updateNps (getInt s1 st.curNps).1] } := by
  simp [infoLoop, h, hok]

theorem infoLoop_multipv (h : getToken s st.token = ("multipv".toList, s1))
    (hok : s1.ok = true) :
    infoLoop (k + 1) s st = infoLoop k (getInt s1 st.curLineId).2
      { st with token := "multipv".toList, curLineId := (getInt s1 st.curLineId).1 } := by
  simp [infoLoop, h, hok]

theorem infoLoop_hashfull (h : getToken s st.token = ("hashfull".toList, s1))
    (hok : s1.ok = true) :
    infoLoop (k + 1) s st = infoLoop k (getToken s1 "hashfull".toList).2
      { st with token := (getToken s1 "hashfull".toList).1 } := by
  simp [infoLoop, h, hok]

theorem infoLoop_pv (h : getToken s st.token = ("pv".toList, s1)) (hok : s1.ok = true) :
    infoLoop (k + 1) s st =
      (readMoves k s1 "pv".toList st.curMoves).bind (fun m =>
        infoLoop k m.1 { st with readLine := true, token := m.2.1, curMoves := m.2.2 }) := by
  simp [infoLoop, h, hok]

theorem infoLoop_score_mate (s2 : IStream) (h : getToken s st.token = ("score".toList, s1))
    (hok : s1.ok = true) (h2 : getToken s1 "score".toList = ("mate".toList, s2)) :
    infoLoop (k + 1) s st = infoLoop k (getFloat s2 st.curEval).2
      { st with eval := true, token := "mate".toList, curIsMat := true,
                curEval := (getFloat s2 st.curEval).1 } := by
  simp [infoLoop, h, hok] at h2 ⊢
  simp [h2]

theorem infoLoop_score_cp (s2 : IStream) (h : getToken s st.token = ("score".toList, s1))
    (hok : s1.ok = true) (h2 : getToken s1 "score".toList = ("cp".toList, s2)) :
    infoLoop (k + 1) s st = infoLoop k (getFloat s2 st.curEval).2
      { st with eval := true, token := "cp".toList, curEval := (getFloat s2 st.curEval).1 } := by
  simp [infoLoop, h, hok] at h2 ⊢
  simp [h2]

theorem infoLoop_score_other (s2 : IStream) (t : List Char)
    (h : getToken s st.token = ("score".toList, s1))
    (hok : s1.ok = true) (h2 : getToken s1 "score".toList = (t, s2))
    (ht1 : t ≠ "mate".toList) (ht2 : t ≠ "cp".toList) :
    infoLoop (k + 1) s st = infoLoop k s2 { st with eval := true, token := t } := by
  simp at ht1 ht2
  simp [infoLoop, h, hok] at h2 ⊢
  simp [h2, ht1, ht2]

theorem infoLoop_skip (t : List Char) (h : getToken s st.token = (t, s1)) (hok : s1.ok = true)
    (ht : acting.contains t = false) :
    infoLoop (k + 1) s st = infoLoop k s1 { st with token := t } := by
  simp [acting] at ht
  obtain ⟨h1, h2, h3, h4, h5, h6, h7⟩ := ht
  simp [infoLoop, h, hok, h1, h2, h3, h4, h5, h6, h7]

end Dispatch

section Fields

theorem joinToks_cons_append (sep t : List Char) (ts : List (List Char)) (rest : List Char) :
    joinToks sep (t :: ts) ++ rest = sep ++ (t ++ (joinToks sep ts ++ rest)) := by
  simp [joinToks, List.append_assoc]

theorem joinToks_nil_append (sep rest : List Char) : joinToks sep [] ++ rest = rest := rfl

/-- A run of ignored tokens is passed over, one loop test for each token. -/
theorem infoLoop_ignored {sep : List Char} (hsep : isSep sep = true) :
    ∀ (toks : List (List Char)),
      toks.all (fun t => isTok t && !acting.contains t) = true →
    ∀ (rest : List Char), atBoundary rest = true → ∀ (k : Nat) (st : InfoState),
      infoLoop (toks.length + k) ⟨joinToks sep toks ++ rest, true⟩ st
        = infoLoop k ⟨rest, true⟩ { st with token := toks.getLast?.getD st.token } := by
  intro toks
  induction toks with
  | nil => intro _ rest _ k st; simp [joinToks]
  | cons t ts ih =>
    intro hall rest hrest k st
    simp only [List.all_cons, Bool.and_eq_true, Bool.not_eq_true'] at hall
    obtain ⟨⟨ht1, ht2⟩, hts⟩ := hall
    have hb : atBoundary (joinToks sep ts ++ rest) = true :=
      atBoundary_join_append hsep ts hrest
    have hg := getToken_tok sep t (joinToks sep ts ++ rest) st.token
      (isWs_of_isSep hsep) ht1 hb
    have hf : (t :: ts).length + k = (ts.length + k) + 1 := by simp; omega
    rw [hf, joinToks_cons_append, infoLoop_skip _ _ _ _ t hg rfl ht2, ih hts rest hrest k]
    cases ts with
    | nil => simp
    | cons a l =>
      have hl : (a :: l).getLast? = some ((a :: l).getLast (List.cons_ne_nil a l)) :=
        List.getLast?_eq_getLast _ _
      simp [hl]

/-- Over one well-formed field the loop of `info` has the effect `Field.effect`. -/
theorem infoLoop_field {sep : List Char} (hsep : isSep sep = true) (f : Field)
    (hf : f.wf = true) (rest : List Char) (hrest : atBoundary rest = true) (k : Nat)
    (st : InfoState) :
    infoLoop (f.cost + k) ⟨joinToks sep f.tokens ++ rest, true⟩ st
      = infoLoop k ⟨rest, true⟩ (f.effect st) := by
  have hws := isWs_of_isSep hsep
  have h1k : 1 + k = k + 1 := by omega
  have hkw : ∀ (kw : List Char), isTok kw = true → ∀ (r : List Char),
      getToken ⟨sep ++ (kw ++ (sep ++ r)), true⟩ st.token = (kw, ⟨sep ++ r, true⟩) :=
    fun kw hk r =>
      getToken_tok sep kw (sep ++ r) st.token hws hk (atBoundary_sep_append hsep r)
  cases f with
  | depth d =>
    simp only [Field.tokens, Field.cost, Field.effect, joinToks_cons_append,
      joinToks_nil_append, h1k]
    rw [infoLoop_depth _ _ _ _ (hkw _ (by decide) _) rfl, getInt_text d _ hws hf hrest]
  | multipv i =>
    simp only [Field.tokens, Field.cost, Field.effect, joinToks_cons_append,
      joinToks_nil_append, h1k]
    rw [infoLoop_multipv _ _ _ _ (hkw _ (by decide) _) rfl, getInt_text i _ hws hf hrest]
  | time t =>
    simp only [Field.tokens, Field.cost, Field.effect, joinToks_cons_append,
      joinToks_nil_append, h1k]
    rw [infoLoop_time _ _ _ _ (hkw _ (by decide) _) rfl, getInt_text t _ hws hf hrest]
  | nps n =>
    simp only [Field.tokens, Field.cost, Field.effect, joinToks_cons_append,
      joinToks_nil_append, h1k]
    rw [infoLoop_nps _ _ _ _ (hkw _ (by decide) _) rfl, getInt_text n _ hws hf hrest]
  | scoreCp v =>
    simp only [Field.tokens, Field.cost, Field.effect, joinToks_cons_append,
      joinToks_nil_append, h1k]
    have h2 := getToken_tok sep "cp".toList (sep ++ (intText v ++ rest))
      "score".toList hws (by decide) (atBoundary_sep_append hsep _)
    rw [infoLoop_score_cp _ _ _ _ _ (hkw _ (by decide) _) rfl h2,
      getFloat_text v _ hws hf hrest]
  | scoreMate v =>
    simp only [Field.tokens, Field.cost, Field.effect, joinToks_cons_append,
      joinToks_nil_append, h1k]
    have h2 := getToken_tok sep "mate".toList (sep ++ (intText v ++ rest)) "score".toList
      hws (by decide)
      (atBoundary_sep_append hsep _)
    rw [infoLoop_score_mate _ _ _ _ _ (hkw _ (by decide) _) rfl h2,
      getFloat_text v _ hws hf hrest]
  | hashfull arg =>
    simp only [Field.tokens, Field.cost, Field.effect, joinToks_cons_append,
      joinToks_nil_append, h1k]
    have h2 := getToken_tok sep arg rest "hashfull".toList hws hf hrest
    rw [infoLoop_hashfull _ _ _ _ (hkw _ (by decide) _) rfl, h2]
  | ignored toks =>
    simp only [Field.tokens, Field.cost, Field.effect]
    exact infoLoop_ignored hsep toks hf rest hrest k st

theorem atBoundary_fieldsText_append {sep : List Char} (hsep : isSep sep = true)
    (fs : List Field) {rest : List Char} (hrest : atBoundary rest = true) :
    atBoundary (fieldsText sep fs ++ rest) = true := by
  induction fs with
  | nil => simpa [fieldsText] using hrest
  | cons f fs ih =>
    simp only [fieldsText, List.append_assoc]
    exact atBoundary_join_append hsep _ ih

/-- Over a sequence of well-formed fields the loop of `info` applies their effects in
order. -/
theorem infoLoop_fields {sep : List Char} (hsep : isSep sep = true) :
    ∀ (fs : List Field), (∀ f ∈ fs, f.wf = true) →
    ∀ (rest : List Char), atBoundary rest = true → ∀ (k : Nat) (st : InfoState),
      infoLoop (fieldsCost fs + k) ⟨fieldsText sep fs ++ rest, true⟩ st
        = infoLoop k ⟨rest, true⟩ (fs.foldl Field.effect st) := by
  intro fs
  induction fs with
  | nil => intro _ rest _ k st; simp [fieldsCost, fieldsText]
  | cons f fs ih =>
    intro hwf rest hrest k st
    have hb := atBoundary_fieldsText_append hsep fs hrest
    have hc : fieldsCost (f :: fs) + k = f.cost + (fieldsCost fs + k) := by
      simp [fieldsCost]; omega
    simp only [fieldsText, List.append_assoc, hc, List.foldl_cons]
    rw [infoLoop_field hsep f (hwf f (by simp)) _ hb, ih (fun g hg => hwf g (by simp [hg])) rest hrest]

end Fields

section Suffix

theorem dropWhile_suffix (p : Char → Bool) (l : List Char) : l.dropWhile p <:+ l :=
  List.dropWhile_suffix p

theorem takeSign_suffix (l : List Char) : (takeSign l).2 <:+ l := by
  unfold takeSign
  split
  · exact List.suffix_cons _ _
  · exact List.suffix_cons _ _
  · exact List.suffix_refl _

theorem skipWs_suffix (l : List Char) : skipWs l <:+ l := List.dropWhile_suffix _

/-- A string extraction that succeeds returns a non-empty piece of the unread text and
leaves a strictly shorter remainder of it. -/
theorem getToken_ok (s : IStream) (old : List Char) (h : (getToken s old).2.ok = true) :
    (getToken s old).1 <:+: s.buf ∧ (getToken s old).2.buf <:+ s.buf ∧
      (getToken s old).2.buf.length < s.buf.length := by
  unfold getToken at h ⊢
  cases hs : s.ok with
  | false => simp [hs] at h
  | true =>
    simp only [hs, if_true] at h ⊢
    cases hk : skipWs s.buf with
    | nil => simp [hk] at h
    | cons c cs =>
      have hsuf : (c :: cs) <:+ s.buf := hk ▸ skipWs_suffix s.buf
      have hc : isSpace c = false := by
        have := List.head_dropWhile_not isSpace s.buf
        cases hcs : isSpace c with
        | false => rfl
        | true =>
          have h2 : (List.dropWhile isSpace s.buf) = c :: cs := hk
          simp [h2, hcs] at this
      simp only
      refine ⟨?_, ?_, ?_⟩
      · exact List.IsInfix.trans (List.takeWhile_prefix _).isInfix hsuf.isInfix
      · exact List.IsSuffix.trans (List.dropWhile_suffix _) hsuf
      · have h1 : ((c :: cs).dropWhile (fun x => !isSpace x)).length ≤ cs.length := by
          simp only [List.dropWhile, hc, Bool.not_false]
          exact (List.dropWhile_suffix _).length_le
        have h2 := hsuf.length_le
        simp at h2
        omega

theorem getInt_suffix (s : IStream) (old : Int) : (getInt s old).2.buf <:+ s.buf := by
  unfold getInt
  split
  · split
    · exact List.nil_suffix
    · rename_i c cs hk
      have hsuf : (c :: cs) <:+ s.buf := hk ▸ skipWs_suffix s.buf
      have h2 : ((takeSign (c :: cs)).2.dropWhile isDigit) <:+ s.buf :=
        ((List.dropWhile_suffix _).trans (takeSign_suffix _)).trans hsuf
      simp only
      split_ifs <;> exact h2
  · exact List.suffix_refl _

theorem getFloat_suffix (s : IStream) (old : FloatVal) : (getFloat s old).2.buf <:+ s.buf := by
  unfold getFloat
  split
  · split
    · exact List.nil_suffix
    · rename_i c cs hk
      have hsuf : (c :: cs) <:+ s.buf := hk ▸ skipWs_suffix s.buf
      have h1 : ((takeSign (c :: cs)).2.dropWhile isDigit) <:+ s.buf :=
        ((List.dropWhile_suffix _).trans (takeSign_suffix _)).trans hsuf
      have h2 : (((takeSign (c :: cs)).2.dropWhile isDigit).tail.dropWhile isDigit) <:+ s.buf :=
        ((List.dropWhile_suffix _).trans (List.tail_suffix _)).trans h1
      have h3 : ∀ l : List Char, l <:+ s.buf →
          ((takeSign l.tail).2.dropWhile isDigit) <:+ s.buf := fun l hl =>
        (((List.dropWhile_suffix _).trans (takeSign_suffix _)).trans (List.tail_suffix _)).trans hl
      simp only
      split_ifs <;> first | exact h1 | exact h2 | exact h3 _ h1 | exact h3 _ h2
  · exact List.suffix_refl _

end Suffix

section Totality

theorem getToken_suffix (s : IStream) (old : List Char) :
    (getToken s old).2.buf <:+ s.buf := by
  unfold getToken
  split
  · split
    · exact List.nil_suffix
    · rename_i c cs hk
      exact (List.dropWhile_suffix _).trans (hk ▸ skipWs_suffix s.buf)
  · exact List.suffix_refl _

theorem getToken_ok_src (s : IStream) (old : List Char) (h : (getToken s old).2.ok = true) :
    s.ok = true := by
  cases hs : s.ok with
  | true => rfl
  | false => simp [getToken, hs] at h

theorem fuelNeeded_pos (s : IStream) : 1 ≤ fuelNeeded s := by
  unfold fuelNeeded; split <;> omega

theorem fuelNeeded_le (s : IStream) : fuelNeeded s ≤ s.buf.length + 1 := by
  unfold fuelNeeded; split <;> omega

/-- After a successful string extraction, one loop test less is needed, also after
further extractions. -/
theorem fuelNeeded_after (s s1 s2 : IStream) (old : List Char) (f : Nat)
    (hf : fuelNeeded s ≤ f + 1)
    (hok : (getToken s old).2.ok = true) (h1' : (getToken s old).2 = s1)
    (h2 : s2.buf <:+ s1.buf) : fuelNeeded s2 ≤ f := by
  have hs := getToken_ok_src s old hok
  obtain ⟨_, _, hlt⟩ := getToken_ok s old hok
  rw [h1'] at hlt
  have := h2.length_le
  have := fuelNeeded_le s2
  simp only [fuelNeeded, hs, if_true] at hf
  omega

/-- The inner loop of `pv` ends on a failed stream, with the same result for every
sufficient number of tests. -/
theorem readMoves_total : ∀ (f : Nat) (s : IStream) (tok : List Char)
    (mv : List (List Char)), fuelNeeded s ≤ f →
    ∃ r, (∀ g, f ≤ g → readMoves g s tok mv = some r) ∧ r.1.ok = false ∧
      r.1.buf <:+ s.buf := by
  intro f
  induction f with
  | zero => intro s _ _ h; have := fuelNeeded_pos s; omega
  | succ f ih =>
    intro s tok mv h
    cases hok : (getToken s tok).2.ok with
    | false =>
      refine ⟨((getToken s tok).2, (getToken s tok).1, mv), fun g hg => ?_, hok,
        getToken_suffix s tok⟩
      obtain ⟨g, rfl⟩ := Nat.exists_eq_succ_of_ne_zero (by omega : g ≠ 0)
      simp [readMoves, hok]
    | true =>
      have hb := fuelNeeded_after s _ _ tok f h hok rfl (List.suffix_refl _)
      obtain ⟨r, hr, h1, h2⟩ := ih (getToken s tok).2 (getToken s tok).1
        (mv ++ [(getToken s tok).1]) hb
      refine ⟨r, fun g hg => ?_, h1, h2.trans (getToken_suffix s tok)⟩
      obtain ⟨g, rfl⟩ := Nat.exists_eq_succ_of_ne_zero (by omega : g ≠ 0)
      simp only [readMoves, hok, if_true]
      exact hr g (by omega)

theorem LoopInv.refl (b : List Char) (st : InfoState) : LoopInv b st st :=
  ⟨⟨[], by simp, by simp⟩, Or.inl, Or.inl, Or.inl⟩

theorem LoopInv.trans {b b1 : List Char} {st st1 r : InfoState} (h1 : LoopInv b st st1)
    (hb : b1 <:+ b) (h2 : LoopInv b1 st1 r) : LoopInv b st r := by
  obtain ⟨⟨e1, hc1, he1⟩, hp1, hs1, hm1⟩ := h1
  obtain ⟨⟨e2, hc2, he2⟩, hp2, hs2, hm2⟩ := h2
  have hin : ∀ {k : List Char}, k <:+: b1 → k <:+: b := fun h => h.trans hb.isInfix
  refine ⟨⟨e1 ++ e2, by simp [hc2, hc1], ?_⟩, ?_, ?_, ?_⟩
  · intro c hc
    rcases List.mem_append.1 hc with h | h
    · exact he1 c h
    · exact he2 c h
  · intro h
    rcases hp2 h with h | h
    · exact hp1 h
    · exact Or.inr (hin h)
  · intro h
    rcases hs2 h with h | h
    · exact hs1 h
    · exact Or.inr (hin h)
  · intro h
    rcases hm2 h with h | h
    · exact hm1 h
    · exact Or.inr (hin h)

end Totality

section LoopTotality

/-- The loop of `info` ends within `fuelNeeded` tests, for every stream and every value
of the locals, and with the same result for every larger number of tests. -/
theorem infoLoop_total : ∀ (f : Nat) (s : IStream) (st : InfoState), fuelNeeded s ≤ f →
    ∃ r, (∀ g, f ≤ g → infoLoop g s st = some r) ∧ LoopInv s.buf st r := by
  intro f
  induction f with
  | zero => intro s _ h; have := fuelNeeded_pos s; omega
  | succ f ih =>
    intro s st h
    cases hok : (getToken s st.token).2.ok with
    | false =>
      refine ⟨{ st with token := (getToken s st.token).1 }, fun g hg => ?_,
        ⟨[], by simp, by simp⟩, Or.inl, Or.inl, Or.inl⟩
      obtain ⟨g, rfl⟩ := Nat.exists_eq_succ_of_ne_zero (by omega : g ≠ 0)
      exact infoLoop_exit _ _ _ hok
    | true =>
      obtain ⟨hinf, hsuf, _⟩ := getToken_ok s st.token hok
      have close : ∀ (s2 : IStream) (st2 : InfoState),
          (∀ k, infoLoop (k + 1) s st = infoLoop k s2 st2) →
          s2.buf <:+ (getToken s st.token).2.buf → LoopInv s.buf st st2 →
          ∃ r, (∀ g, f + 1 ≤ g → infoLoop g s st = some r) ∧ LoopInv s.buf st r := by
        intro s2 st2 hd h2 hstep
        obtain ⟨r, hr, hinv⟩ := ih s2 st2 (fuelNeeded_after s _ s2 st.token f h hok rfl h2)
        refine ⟨r, fun g hg => ?_, LoopInv.trans hstep (h2.trans hsuf) hinv⟩
        obtain ⟨g, rfl⟩ := Nat.exists_eq_succ_of_ne_zero (by omega : g ≠ 0)
        rw [hd g]
        exact hr g (by omega)
      have hfuel : fuelNeeded (getToken s st.token).2 ≤ f :=
        fuelNeeded_after s _ _ st.token f h hok rfl (List.suffix_refl _)
      generalize hg : getToken s st.token = g at hok hinf hsuf close hfuel
      obtain ⟨t, s1⟩ := g
      simp only at hok hinf hsuf close hfuel
      have same : ∀ (t : List Char), LoopInv s.buf st { st with token := t } :=
        fun t => ⟨⟨[], by simp, by simp⟩, Or.inl, Or.inl, Or.inl⟩
      by_cases h1 : t = "depth".toList
      · subst h1
        exact close _ _ (fun k => infoLoop_depth k _ _ _ hg hok) (getInt_suffix _ _) ⟨⟨[], by simp, by simp⟩, Or.inl, Or.inl, Or.inl⟩
      by_cases h2 : t = "time".toList
      · subst h2
        exact close _ _ (fun k => infoLoop_time k _ _ _ hg hok) (getInt_suffix _ _)
          ⟨⟨[_], rfl, by simp [isUpdateLine]⟩, Or.inl, Or.inl, Or.inl⟩
      by_cases h3 : t = "pv".toList
      · subst h3
        obtain ⟨m, hm, _, hm2⟩ := readMoves_total f s1 "pv".toList st.curMoves hfuel
        obtain ⟨r, hr, hinv⟩ := ih m.1
          { st with readLine := true, token := m.2.1, curMoves := m.2.2 }
          (by have := fuelNeeded_le m.1; have := hm2.length_le
              have := fuelNeeded_le s1
              have h3 := getToken_ok s st.token (by rw [hg]; exact hok)
              have h4 := getToken_ok_src s st.token (by rw [hg]; exact hok)
              rw [hg] at h3
              simp only [fuelNeeded, h4, if_true] at h
              have := h3.2.2
              simp only at this
              omega)
        refine ⟨r, fun g hgg => ?_, LoopInv.trans
          (⟨⟨[], by simp, by simp⟩, fun _ => Or.inr hinf, Or.inl, Or.inl⟩ :
            LoopInv s.buf st { st with readLine := true, token := m.2.1, curMoves := m.2.2 })
          (hm2.trans hsuf) hinv⟩
        obtain ⟨g, rfl⟩ := Nat.exists_eq_succ_of_ne_zero (by omega : g ≠ 0)
        rw [infoLoop_pv _ _ _ _ hg hok, hm g (by omega), Option.some_bind]
        exact hr g (by omega)
      by_cases h4 : t = "multipv".toList
      · subst h4
        exact close _ _ (fun k => infoLoop_multipv k _ _ _ hg hok) (getInt_suffix _ _)
          ⟨⟨[], by simp, by simp⟩, Or.inl, Or.inl, fun _ => Or.inr hinf⟩
      by_cases h5 : t = "score".toList
      · subst h5
        generalize hg2 : getToken s1 "score".toList = g2
        obtain ⟨t2, s2⟩ := g2
        have hs2 : s2.buf <:+ s1.buf := by
          have := getToken_suffix s1 "score".toList
          rw [hg2] at this; exact this
        by_cases hm : t2 = "mate".toList
        · subst hm
          exact close _ _ (fun k => infoLoop_score_mate k _ _ _ _ hg hok hg2)
            ((getFloat_suffix _ _).trans hs2)
            ⟨⟨[], by simp, by simp⟩, Or.inl, fun _ => Or.inr hinf, Or.inl⟩
        by_cases hc : t2 = "cp".toList
        · subst hc
          exact close _ _ (fun k => infoLoop_score_cp k _ _ _ _ hg hok hg2)
            ((getFloat_suffix _ _).trans hs2)
            ⟨⟨[], by simp, by simp⟩, Or.inl, fun _ => Or.inr hinf, Or.inl⟩
        · exact close _ _ (fun k => infoLoop_score_other k _ _ _ _ t2 hg hok hg2 hm hc) hs2 ⟨⟨[], by simp, by simp⟩, Or.inl, fun _ => Or.inr hinf, Or.inl⟩
      by_cases h6 : t = "hashfull".toList
      · subst h6
        exact close _ _ (fun k => infoLoop_hashfull k _ _ _ hg hok) (getToken_suffix _ _)
          (same _)
      by_cases h7 : t = "nps".toList
      · subst h7
        exact close _ _ (fun k => infoLoop_nps k _ _ _ hg hok) (getInt_suffix _ _)
          ⟨⟨[_], rfl, by simp [isUpdateLine]⟩, Or.inl, Or.inl, Or.inl⟩
      · have hact : acting.contains t = false := by
          simp at h1 h2 h3 h4 h5 h6 h7
          simp [acting, h1, h2, h3, h4, h5, h6, h7]
        exact close _ _ (fun k => infoLoop_skip k _ _ _ t hg hok hact) (List.suffix_refl _)
          (same _)

end LoopTotality

section Lines

/-- At the end of the line the loop of `info` exits with its locals unchanged. -/
theorem infoLoop_end (k : Nat) {trail : List Char} (htrail : isWs trail = true)
    (st : InfoState) : infoLoop (k + 1) ⟨trail, true⟩ st = some st := by
  rw [infoLoop_exit _ _ _ (by rw [getToken_ws _ htrail]), getToken_ws _ htrail]

/-- The `pv` field takes every remaining token as a move, and the loop then exits. -/
theorem infoLoop_pv_end {sep trail : List Char} (hsep : isSep sep = true)
    (htrail : isWs trail = true) (moves : List (List Char))
    (hmoves : ∀ m ∈ moves, isTok m = true) (j : Nat) (st : InfoState) :
    infoLoop (moves.length + 1 + j + 1) ⟨pvText sep moves trail, true⟩ st
      = some (afterPv st moves) := by
  have hb : atBoundary (joinToks sep moves ++ trail) = true :=
    atBoundary_join_append hsep moves (atBoundary_of_isWs htrail)
  have hg := getToken_tok sep "pv".toList (joinToks sep moves ++ trail)
    st.token (isWs_of_isSep hsep) (by decide) hb
  have hj : moves.length + 1 + j = moves.length + j + 1 := by omega
  rw [pvText, infoLoop_pv _ _ _ _ hg rfl, readMoves_join hsep htrail moves hmoves j,
    Option.some_bind, hj, infoLoop_exit _ _ _ (by rw [getToken_failed]), getToken_failed]
  rfl

/-- The value of `info` is the one found with any larger number of loop tests. -/
theorem info_eq_of_loop (s : IStream) (g : Nat) (r : InfoState)
    (hg : s.buf.length + 1 ≤ g) (h : infoLoop g s InfoState.init = some r) :
    info s = some (infoFinish r) := by
  obtain ⟨r0, hr0, _⟩ := infoLoop_total (s.buf.length + 1) s InfoState.init (fuelNeeded_le s)
  have h1 := hr0 (s.buf.length + 1) (Nat.le_refl _)
  have h3 := hr0 g hg
  rw [h] at h3
  simp only [info, h1, Option.map_some']
  rw [Option.some.inj h3]

/-- The calls of `info` on a sequence of well-formed fields without a `pv` field. -/
theorem info_fields {sep trail : List Char} (hsep : isSep sep = true)
    (htrail : isWs trail = true) (fs : List Field) (hwf : ∀ f ∈ fs, f.wf = true) :
    info ⟨fieldsText sep fs ++ trail, true⟩ = some (infoFinish (afterFields fs)) := by
  apply info_eq_of_loop _ (fieldsCost fs + ((fieldsText sep fs ++ trail).length + 1))
  · simp only; omega
  · rw [infoLoop_fields hsep fs hwf trail (atBoundary_of_isWs htrail), infoLoop_end _ htrail]
    rfl

/-- The calls of `info` on a sequence of well-formed fields followed by a `pv` field. -/
theorem info_fields_pv {sep trail : List Char} (hsep : isSep sep = true)
    (htrail : isWs trail = true) (fs : List Field) (hwf : ∀ f ∈ fs, f.wf = true)
    (moves : List (List Char)) (hmoves : ∀ m ∈ moves, isTok m = true) :
    info ⟨fieldsText sep fs ++ pvText sep moves trail, true⟩
      = some (infoFinish (afterPv (afterFields fs) moves)) := by
  apply info_eq_of_loop _ (fieldsCost fs + (moves.length + 1 +
    (fieldsText sep fs ++ pvText sep moves trail).length + 1))
  · simp only; omega
  · have hb : atBoundary (pvText sep moves trail) = true := atBoundary_sep_append hsep _
    rw [infoLoop_fields hsep fs hwf _ hb]
    exact infoLoop_pv_end hsep htrail moves hmoves _ _

/-- A line whose first token is `info` is handed to `info`. -/
theorem parseMessage_info {rest : List Char} (hrest : atBoundary rest = true) :
    parseMessage ("info".toList ++ rest) = info ⟨rest, true⟩ := by
  have hg := getToken_tok [] "info".toList rest [] (by decide)
    (by decide) hrest
  simp only [List.nil_append] at hg
  simp only [parseMessage, IStream.ofString, hg]
  simp

/-- The function `info` returns for every stream. -/
theorem info_total (s : IStream) : ∃ r, info s = some (infoFinish r) ∧
    LoopInv s.buf InfoState.init r := by
  obtain ⟨r0, hr0, hinv⟩ := infoLoop_total (s.buf.length + 1) s InfoState.init
    (fuelNeeded_le s)
  exact ⟨r0, by simp [info, hr0 (s.buf.length + 1) (Nat.le_refl _)], hinv⟩

end Lines

section Summary

theorem foldl_effect_calls (fs : List Field) : ∀ (st : InfoState),
    (fs.foldl Field.effect st).calls = st.calls ++ timeNpsCalls fs := by
  induction fs with
  | nil => intro st; simp [timeNpsCalls]
  | cons f fs ih =>
    intro st
    rw [List.foldl_cons, ih]
    cases f <;> simp [Field.effect, timeNpsCalls]

theorem foldl_effect_frame (fs : List Field) : ∀ (st : InfoState),
    (fs.foldl Field.effect st).readLine = st.readLine ∧
    (fs.foldl Field.effect st).curMoves = st.curMoves := by
  induction fs with
  | nil => intro st; simp
  | cons f fs ih =>
    intro st
    rw [List.foldl_cons]
    obtain ⟨h1, h2⟩ := ih (Field.effect st f)
    rw [h1, h2]
    cases f <;> simp [Field.effect]

theorem foldl_effect_eval (fs : List Field) : ∀ (st : InfoState),
    (fs.foldl Field.effect st).eval = (st.eval || fs.any Field.isScore) := by
  induction fs with
  | nil => intro st; simp
  | cons f fs ih =>
    intro st
    rw [List.foldl_cons, ih]
    cases f <;> simp [Field.effect, Field.isScore]

theorem foldl_effect_mate (fs : List Field) : ∀ (st : InfoState),
    (fs.foldl Field.effect st).curIsMat = (st.curIsMat || fs.any Field.isScoreMate) := by
  induction fs with
  | nil => intro st; simp
  | cons f fs ih =>
    intro st
    rw [List.foldl_cons, ih]
    cases f <;> simp [Field.effect, Field.isScoreMate]

theorem foldl_effect_depth (D : Int) (fs : List Field) : ∀ (st : InfoState),
    (∀ d, Field.depth d ∈ fs → d = D) → (Field.depth D ∈ fs ∨ st.curDepth = D) →
    (fs.foldl Field.effect st).curDepth = D := by
  induction fs with
  | nil => intro st _ h; simpa using h
  | cons f fs ih =>
    intro st hu hex
    rw [List.foldl_cons]
    apply ih _ (fun d hd => hu d (List.mem_cons_of_mem _ hd))
    cases f with
    | depth d =>
      have := hu d (by simp)
      subst this
      exact Or.inr rfl
    | _ =>
      rcases hex with h | h
      · simp at h; exact Or.inl h
      · exact Or.inr h

theorem foldl_effect_lineId (I : Int) (fs : List Field) : ∀ (st : InfoState),
    (∀ i, Field.multipv i ∈ fs → i = I) → (Field.multipv I ∈ fs ∨ st.curLineId = I) →
    (fs.foldl Field.effect st).curLineId = I := by
  induction fs with
  | nil => intro st _ h; simpa using h
  | cons f fs ih =>
    intro st hu hex
    rw [List.foldl_cons]
    apply ih _ (fun d hd => hu d (List.mem_cons_of_mem _ hd))
    cases f with
    | multipv d =>
      have := hu d (by simp)
      subst this
      exact Or.inr rfl
    | _ =>
      rcases hex with h | h
      · simp at h; exact Or.inl h
      · exact Or.inr h

theorem foldl_effect_curEval (mate : Bool) (V : Int) (fs : List Field) :
    ∀ (st : InfoState),
    (∀ f ∈ fs, f.isScore = true → f = Field.score mate V) →
    (Field.score mate V ∈ fs ∨ st.curEval = FloatVal.ofInt V) →
    (fs.foldl Field.effect st).curEval = FloatVal.ofInt V := by
  induction fs with
  | nil => intro st _ h; simpa using h
  | cons f fs ih =>
    intro st hu hex
    rw [List.foldl_cons]
    apply ih _ (fun d hd => hu d (List.mem_cons_of_mem _ hd))
    have hsc : f.isScore = true → (Field.effect st f).curEval = FloatVal.ofInt V := by
      intro hf
      have := hu f (by simp) hf
      subst this
      cases mate <;> simp [Field.score, Field.effect]
    cases hf : f.isScore with
    | true => exact Or.inr (hsc hf)
    | false =>
      rcases hex with h | h
      · rcases List.mem_cons.1 h with h | h
        · rw [← h] at hf
          cases mate <;> simp [Field.score, Field.isScore] at hf
        · exact Or.inl h
      · refine Or.inr ?_
        rw [← h]
        cases f <;> simp [Field.effect, Field.isScore] at hf ⊢

theorem any_isScoreMate (mate : Bool) (V : Int) (fs : List Field)
    (hu : ∀ f ∈ fs, f.isScore = true → f = Field.score mate V)
    (hex : Field.score mate V ∈ fs) : fs.any Field.isScoreMate = mate := by
  cases mate with
  | true =>
    rw [List.any_eq_true]
    exact ⟨_, hex, by simp [Field.score, Field.isScoreMate]⟩
  | false =>
    rw [Bool.eq_false_iff]
    intro h
    rw [List.any_eq_true] at h
    obtain ⟨f, hf, hm⟩ := h
    have hs : f.isScore = true := by cases f <;> simp [Field.isScoreMate, Field.isScore] at hm ⊢
    have := hu f hf hs
    subst this
    simp [Field.score, Field.isScoreMate] at hm

theorem any_isScore_of_mem (mate : Bool) (V : Int) (fs : List Field)
    (hex : Field.score mate V ∈ fs) : fs.any Field.isScore = true := by
  rw [List.any_eq_true]
  exact ⟨_, hex, by cases mate <;> simp [Field.score, Field.isScore]⟩

theorem timeNpsCalls_not_updateLine (fs : List Field) :
    ∀ c ∈ timeNpsCalls fs, isUpdateLine c = false := by
  induction fs with
  | nil => intro c hc; simp [timeNpsCalls] at hc
  | cons f fs ih =>
    intro c hc
    cases f <;> simp [timeNpsCalls] at hc <;> first
      | exact ih c hc
      | (rcases hc with rfl | hc
         · rfl
         · exact ih c hc)

theorem wrapInt_pred (I : Int) (h1 : 1 ≤ I) (h2 : I ≤ INT_MAX) : wrapInt (I - 1) = I - 1 := by
  simp only [wrapInt, INT_MAX] at *
  omega

end Summary

/-! ## The claims on the UCI receiver -/

section Receiver

theorem afterFields_summary (fs : List Field) :
    (afterFields fs).calls = timeNpsCalls fs ∧ (afterFields fs).readLine = false ∧
    (afterFields fs).curMoves = [] ∧ (afterFields fs).eval = fs.any Field.isScore ∧
    (afterFields fs).curIsMat = fs.any Field.isScoreMate := by
  refine ⟨?_, ?_, ?_, ?_, ?_⟩
  · simpa [InfoState.init] using foldl_effect_calls fs InfoState.init
  · exact (foldl_effect_frame fs InfoState.init).1
  · exact (foldl_effect_frame fs InfoState.init).2
  · simpa [InfoState.init] using foldl_effect_eval fs InfoState.init
  · simpa [InfoState.init] using foldl_effect_mate fs InfoState.init

theorem infoFinish_afterPv (st : InfoState) (moves : List (List Char)) :
    infoFinish (afterPv st moves) =
      if !st.eval || (st.curMoves ++ moves).isEmpty || st.curLineId == 0 then st.calls
      else st.calls ++ [Call.updateLine (wrapInt (st.curLineId - 1))
        ⟨st.curEval, st.curDepth, st.curMoves ++ moves, st.curIsMat⟩] := by
  simp [infoFinish, afterPv]

theorem infoFinish_afterFields (fs : List Field) :
    infoFinish (afterFields fs) = timeNpsCalls fs := by
  obtain ⟨h1, h2, _⟩ := afterFields_summary fs
  simp [infoFinish, h1, h2]

/-- C1 (amended): for every `info` line made of well-formed fields, among them `depth D`,
`multipv I` with `I ≥ 1` and one kind of score field with value `V`, followed by a `pv`
field with at least one move, `parseMessage` makes the `time` and `nps` calls of the fields
and then exactly one `updateLine` call, with slot `I - 1` and the line of eval `V`, depth
`D`, the moves in order, and the mate flag of the score kind. -/
theorem C1_info_line_forwards_one_update (sep trail : List Char) (fs : List Field)
    (D I V : Int) (mate : Bool) (moves : List (List Char))
    (hsep : isSep sep = true) (htrail : isWs trail = true)
    (hwf : ∀ f ∈ fs, f.wf = true)
    (hD : Field.depth D ∈ fs) (hD1 : ∀ d, Field.depth d ∈ fs → d = D)
    (hI : Field.multipv I ∈ fs) (hI1 : ∀ i, Field.multipv i ∈ fs → i = I) (hpos : 1 ≤ I)
    (hS : Field.score mate V ∈ fs)
    (hS1 : ∀ f ∈ fs, f.isScore = true → f = Field.score mate V)
    (hne : moves ≠ []) (hmoves : ∀ m ∈ moves, isTok m = true) :
    parseMessage ("info".toList ++ (fieldsText sep fs ++ pvText sep moves trail))
      = some (timeNpsCalls fs ++
          [Call.updateLine (I - 1) ⟨FloatVal.ofInt V, D, moves, mate⟩])
    ∧ ∀ c ∈ timeNpsCalls fs, isUpdateLine c = false := by
  refine ⟨?_, timeNpsCalls_not_updateLine fs⟩
  have hb : atBoundary (fieldsText sep fs ++ pvText sep moves trail) = true :=
    atBoundary_fieldsText_append hsep fs (atBoundary_sep_append hsep _)
  rw [parseMessage_info hb, info_fields_pv hsep htrail fs hwf moves hmoves]
  have hI2 : I ≤ INT_MAX := by
    have := hwf _ hI
    simp only [Field.wf, inInt, decide_eq_true_eq] at this
    exact this.2
  obtain ⟨h1, _, h2, h3, h4⟩ := afterFields_summary fs
  have h5 : (afterFields fs).curDepth = D :=
    foldl_effect_depth D fs InfoState.init hD1 (Or.inl hD)
  have h6 : (afterFields fs).curLineId = I :=
    foldl_effect_lineId I fs InfoState.init hI1 (Or.inl hI)
  have h7 : (afterFields fs).curEval = FloatVal.ofInt V :=
    foldl_effect_curEval mate V fs InfoState.init hS1 (Or.inl hS)
  rw [any_isScore_of_mem mate V fs hS] at h3
  rw [any_isScoreMate mate V fs hS1 hS] at h4
  have hI0 : I ≠ 0 := by omega
  have hm : moves.isEmpty = false := by cases moves <;> simp at hne ⊢
  rw [infoFinish_afterPv, h1, h2, h3, h4, h5, h6, h7, wrapInt_pred I hpos hI2]
  simp [hI0, hm]

/-- The first example of the spec is an instance of C1. -/
theorem C1_info_line_forwards_one_update_witness :
    parseMessage
        "info depth 12 seldepth 20 multipv 1 score cp 34 nps 500000 pv e2e4 e7e5".toList
      = some [Call.updateNps 500000,
          Call.updateLine 0 ⟨FloatVal.ofInt 34, 12, ["e2e4".toList, "e7e5".toList], false⟩] :=
  (C1_info_line_forwards_one_update [' '] []
    [Field.depth 12, Field.ignored ["seldepth".toList, "20".toList], Field.multipv 1,
      Field.scoreCp 34, Field.nps 500000]
    12 1 34 false ["e2e4".toList, "e7e5".toList]
    (by decide) (by decide) (by decide) (by decide) (by simp) (by decide) (by simp)
    (by decide) (by decide) (by decide) (by decide) (by decide)).1

/-- C1 as stated fails: a `nps` value beyond the `int` range makes the extraction fail, the
loop stops before `pv`, and no `updateLine` call is made. -/
theorem C1_counterexample_nps_overflow :
    parseMessage "info depth 12 multipv 1 score cp 34 nps 3000000000 pv e2e4".toList
      = some [Call.updateNps 2147483647] := by
  decide

/-- The four ways of `parseMessage`: no call, one `signalBestmove`, one `signalReadyok`, or
the calls of `info` on the text after the first token. -/
theorem parseMessage_cases (msg : List Char) :
    parseMessage msg = some [] ∨
    parseMessage msg = some [Call.signalBestmove (getToken (getToken ⟨msg, true⟩ []).2 []).1] ∨
    parseMessage msg = some [Call.signalReadyok] ∨
    parseMessage msg = info (getToken ⟨msg, true⟩ []).2 := by
  simp only [parseMessage, IStream.ofString, bestmove, readyok, option]
  split_ifs <;> simp

theorem count_updateLine_append (l : List Call) (hl : ∀ c ∈ l, isUpdateLine c = false)
    (e : List Call) : ((l ++ e).filter isUpdateLine).length = (e.filter isUpdateLine).length := by
  have : l.filter isUpdateLine = [] := by
    rw [List.filter_eq_nil_iff]
    intro c hc
    simp [hl c hc]
  simp [List.filter_append, this]

theorem infoFinish_cases (r : InfoState) :
    infoFinish r = r.calls ∨
    (r.readLine = true ∧ r.eval = true ∧ r.curMoves ≠ [] ∧ r.curLineId ≠ 0 ∧
      infoFinish r = r.calls ++ [Call.updateLine (wrapInt (r.curLineId - 1))
        ⟨r.curEval, r.curDepth, r.curMoves, r.curIsMat⟩]) := by
  unfold infoFinish
  cases h1 : r.readLine with
  | false => simp
  | true =>
    cases h2 : r.eval with
    | false => simp
    | true =>
      by_cases h3 : r.curMoves = []
      · simp [h3]
      · by_cases h4 : r.curLineId = 0
        · simp [h4]
        · right
          have : r.curMoves.isEmpty = false := by
            cases hm : r.curMoves with
            | nil => exact absurd hm h3
            | cons _ _ => rfl
          simp [h3, h4, this]

/-- C2: every line is parsed to the end, with at most one `updateLine` call; no
`updateLine` call is made when the text `pv`, the text `score` or the text `multipv` does
not occur in the line; and for a line of well-formed fields none is made when there is no
`pv` field, when there is a `pv` field but no `score` field, when no move follows `pv`, or
when every `multipv` field (if any) has the value zero. -/
theorem C2_update_line_guard :
    (∀ msg : List Char, ∃ calls, parseMessage msg = some calls ∧
      (calls.filter isUpdateLine).length ≤ 1) ∧
    (∀ msg : List Char,
      (¬ "pv".toList <:+: msg ∨ ¬ "score".toList <:+: msg ∨ ¬ "multipv".toList <:+: msg) →
      ∃ calls, parseMessage msg = some calls ∧ ∀ c ∈ calls, isUpdateLine c = false) ∧
    (∀ (sep trail : List Char) (fs : List Field) (moves : List (List Char)),
      isSep sep = true → isWs trail = true → (∀ f ∈ fs, f.wf = true) →
      (∀ m ∈ moves, isTok m = true) →
      parseMessage ("info".toList ++ (fieldsText sep fs ++ trail)) = some (timeNpsCalls fs) ∧
      ((fs.any Field.isScore = false ∨ moves = [] ∨ ∀ i, Field.multipv i ∈ fs → i = 0) →
        parseMessage ("info".toList ++ (fieldsText sep fs ++ pvText sep moves trail))
          = some (timeNpsCalls fs)) ∧
      ∀ c ∈ timeNpsCalls fs, isUpdateLine c = false) := by
  refine ⟨?_, ?_, ?_⟩
  · intro msg
    rcases parseMessage_cases msg with h | h | h | h
    · exact ⟨_, h, by simp⟩
    · exact ⟨_, h, by simp [isUpdateLine]⟩
    · exact ⟨_, h, by simp [isUpdateLine]⟩
    · obtain ⟨r, hr, ⟨e, he, hne⟩, _⟩ := info_total (getToken ⟨msg, true⟩ []).2
      refine ⟨_, h.trans hr, ?_⟩
      simp only [InfoState.init, List.nil_append] at he
      have hc : ∀ c ∈ r.calls, isUpdateLine c = false := he ▸ hne
      rcases infoFinish_cases r with h1 | ⟨_, _, _, _, h1⟩
      · rw [h1]
        have := count_updateLine_append r.calls hc []
        rw [List.append_nil] at this
        rw [this]
        simp
      · rw [h1, count_updateLine_append r.calls hc]
        simp [isUpdateLine]
  · intro msg hmsg
    rcases parseMessage_cases msg with h | h | h | h
    · exact ⟨_, h, by simp⟩
    · exact ⟨_, h, by simp [isUpdateLine]⟩
    · exact ⟨_, h, by simp [isUpdateLine]⟩
    · obtain ⟨r, hr, ⟨e, he, hne⟩, hp, hs, hm⟩ := info_total (getToken ⟨msg, true⟩ []).2
      have hsuf : (getToken ⟨msg, true⟩ []).2.buf <:+ msg := getToken_suffix ⟨msg, true⟩ []
      have hin : ∀ {k : List Char}, k <:+: (getToken ⟨msg, true⟩ []).2.buf → k <:+: msg :=
        fun hk => hk.trans hsuf.isInfix
      simp only [InfoState.init, List.nil_append] at he
      have hc : ∀ c ∈ r.calls, isUpdateLine c = false := he ▸ hne
      refine ⟨_, h.trans hr, ?_⟩
      rcases infoFinish_cases r with h1 | ⟨h2, h3, _, h4, _⟩
      · rw [h1]; exact hc
      · exfalso
        rcases hmsg with hx | hx | hx
        · rcases hp h2 with h | h
          · simp [InfoState.init] at h
          · exact hx (hin h)
        · rcases hs h3 with h | h
          · simp [InfoState.init] at h
          · exact hx (hin h)
        · rcases hm h4 with h | h
          · simp [InfoState.init] at h
          · exact hx (hin h)
  · intro sep trail fs moves hsep htrail hwf hmoves
    refine ⟨?_, ?_, timeNpsCalls_not_updateLine fs⟩
    · have hb : atBoundary (fieldsText sep fs ++ trail) = true :=
        atBoundary_fieldsText_append hsep fs (atBoundary_of_isWs htrail)
      rw [parseMessage_info hb, info_fields hsep htrail fs hwf, infoFinish_afterFields]
    · intro hcase
      have hb : atBoundary (fieldsText sep fs ++ pvText sep moves trail) = true :=
        atBoundary_fieldsText_append hsep fs (atBoundary_sep_append hsep _)
      rw [parseMessage_info hb, info_fields_pv hsep htrail fs hwf moves hmoves,
        infoFinish_afterPv]
      obtain ⟨h1, _, h2, h3, _⟩ := afterFields_summary fs
      rw [h1, h2, h3]
      rcases hcase with h | h | h
      · simp [h]
      · simp [h]
      · have h6 : (afterFields fs).curLineId = 0 :=
          foldl_effect_lineId 0 fs InfoState.init h (Or.inr rfl)
        simp [h6]

/-- Instances of C2: the line `info depth 4` of the spec, and a line whose `multipv` is
zero. -/
theorem C2_update_line_guard_witness :
    parseMessage "info depth 4".toList = some [] ∧
    parseMessage "info depth 5 multipv 0 score cp 3 time 7 pv e2e4".toList
      = some [Call.updateThinktime 7] :=
  ⟨(C2_update_line_guard.2.2 [' '] [] [Field.depth 4] [] (by decide) (by decide) (by decide)
      (by decide)).1,
   (C2_update_line_guard.2.2 [' '] []
      [Field.depth 5, Field.multipv 0, Field.scoreCp 3, Field.time 7] ["e2e4".toList]
      (by decide) (by decide) (by decide) (by decide)).2.1 (Or.inr (Or.inr (by simp)))⟩

/-- C3: for a line whose first token is `bestmove`, `parseMessage` makes exactly one call,
`signalBestmove m` with `m` the token after `bestmove`, whatever text `tail` follows that
token; when no token follows `bestmove`, the one call is `signalBestmove` of the empty
string. -/
theorem C3_bestmove_signals_next_token (ws sep m tail trail : List Char)
    (hws : isWs ws = true) (hsep : isSep sep = true) (hm : isTok m = true)
    (htail : atBoundary tail = true) (htrail : isWs trail = true) :
    parseMessage (ws ++ ("bestmove".toList ++ (sep ++ (m ++ tail))))
      = some [Call.signalBestmove m] ∧
    parseMessage (ws ++ ("bestmove".toList ++ trail)) = some [Call.signalBestmove []] := by
  constructor
  · have hg := getToken_tok ws "bestmove".toList (sep ++ (m ++ tail)) []
      hws (by decide) (atBoundary_sep_append hsep _)
    have hg2 := getToken_tok sep m tail [] (isWs_of_isSep hsep) hm htail
    simp only [parseMessage, IStream.ofString, hg, bestmove, hg2]
    simp
  · have hg := getToken_tok ws "bestmove".toList trail []
      hws (by decide) (atBoundary_of_isWs htrail)
    have hg2 := getToken_ws [] htrail
    simp only [parseMessage, IStream.ofString, hg, bestmove, hg2]
    simp

/-- The example of the spec is an instance of C3. -/
theorem C3_bestmove_signals_next_token_witness :
    parseMessage "bestmove e2e4 ponder e7e5".toList = some [Call.signalBestmove "e2e4".toList] :=
  (C3_bestmove_signals_next_token [] [' '] "e2e4".toList " ponder e7e5".toList []
    (by decide) (by decide) (by decide) (by decide) (by decide)).1

/-- C4 (amended): for every `info` line whose fields before `pv` are well-formed,
`parseMessage` makes one `updateThinktime` call for each `time` field and one `updateNps`
call for each `nps` field, in the order of the fields, and apart from them only
`updateLine` calls, whether the line has a `pv` field or not. -/
theorem C4_time_nps_forwarded_in_order (sep trail : List Char) (fs : List Field)
    (moves : List (List Char)) (hsep : isSep sep = true) (htrail : isWs trail = true)
    (hwf : ∀ f ∈ fs, f.wf = true) (hmoves : ∀ m ∈ moves, isTok m = true) :
    parseMessage ("info".toList ++ (fieldsText sep fs ++ trail)) = some (timeNpsCalls fs) ∧
    ∃ upd, parseMessage ("info".toList ++ (fieldsText sep fs ++ pvText sep moves trail))
        = some (timeNpsCalls fs ++ upd) ∧ ∀ c ∈ upd, isUpdateLine c = true := by
  constructor
  · have hb : atBoundary (fieldsText sep fs ++ trail) = true :=
      atBoundary_fieldsText_append hsep fs (atBoundary_of_isWs htrail)
    rw [parseMessage_info hb, info_fields hsep htrail fs hwf, infoFinish_afterFields]
  · have hb : atBoundary (fieldsText sep fs ++ pvText sep moves trail) = true :=
      atBoundary_fieldsText_append hsep fs (atBoundary_sep_append hsep _)
    rw [parseMessage_info hb, info_fields_pv hsep htrail fs hwf moves hmoves,
      infoFinish_afterPv, (afterFields_summary fs).1]
    split
    · exact ⟨[], by simp, by simp⟩
    · exact ⟨[_], rfl, by simp [isUpdateLine]⟩

/-- An instance of C4, with and without a `pv` field. -/
theorem C4_time_nps_forwarded_in_order_witness :
    parseMessage "info depth 4 time 17 nps 500000 time 18".toList
      = some [Call.updateThinktime 17, Call.updateNps 500000, Call.updateThinktime 18] ∧
    ∃ upd, parseMessage "info depth 4 time 17 nps 500000 time 18 pv e2e4".toList
        = some ([Call.updateThinktime 17, Call.updateNps 500000, Call.updateThinktime 18] ++ upd)
      ∧ ∀ c ∈ upd, isUpdateLine c = true :=
  C4_time_nps_forwarded_in_order [' '] []
    [Field.depth 4, Field.time 17, Field.nps 500000, Field.time 18] ["e2e4".toList]
    (by decide) (by decide) (by decide) (by decide)

/-- C4 as stated fails: `time 5` is well-formed and stands before any `pv`, but the
extraction of the depth fails on `x`, the loop stops, and no call is made. -/
theorem C4_counterexample_failed_extraction :
    parseMessage "info depth x time 5".toList = some [] := by
  decide

/-- C5: the dispatch of `parseMessage` depends only on the first token `tok` of the line
(empty for a line of white space only): if it is `readyok` the one call is
`signalReadyok`; if it is `option`, `id` or `uciok`, or none of the six known commands,
no call is made; in each case parsing returns. -/
theorem C5_top_level_dispatch (ws tok rest : List Char) (hws : isWs ws = true)
    (htok : isTok tok = true ∨ (tok = [] ∧ rest = [])) (hrest : atBoundary rest = true) :
    (tok = "readyok".toList →
      parseMessage (ws ++ (tok ++ rest)) = some [Call.signalReadyok]) ∧
    (tok = "option".toList ∨ tok = "id".toList ∨ tok = "uciok".toList →
      parseMessage (ws ++ (tok ++ rest)) = some []) ∧
    (tok ∉ ["readyok".toList, "bestmove".toList, "info".toList, "option".toList,
        "id".toList, "uciok".toList] →
      parseMessage (ws ++ (tok ++ rest)) = some []) := by
  have hg : (getToken ⟨ws ++ (tok ++ rest), true⟩ []).1 = tok := by
    rcases htok with h | ⟨h1, h2⟩
    · rw [getToken_tok ws tok rest [] hws h hrest]
    · subst h1 h2
      simp only [List.append_nil]
      rw [getToken_ws [] hws]
  simp only [parseMessage, IStream.ofString, hg, readyok, option]
  refine ⟨?_, ?_, ?_⟩
  · rintro rfl
    simp
  · rintro (rfl | rfl | rfl) <;> simp
  · intro h
    simp at h
    simp [h]

/-- Instances of C5: a `readyok` line, and the empty line. -/
theorem C5_top_level_dispatch_witness :
    parseMessage "  readyok now".toList = some [Call.signalReadyok] ∧
    parseMessage [] = some [] :=
  ⟨(C5_top_level_dispatch "  ".toList "readyok".toList " now".toList (by decide)
      (Or.inl (by decide)) (by decide)).1 rfl,
   (C5_top_level_dispatch [] [] [] (by decide) (Or.inr ⟨rfl, rfl⟩) (by decide)).2.2
      (by decide)⟩

end Receiver

/-! ## The claims on the board model -/

section BoardClaims

open Board

/-- C6 fails on the code: `e7e8q` has the move string format of the spec, with the
promotion letter `q`, and `checkMove` rejects it. -/
theorem C6_checkMove_rejects_promotion :
    matchesMoveFormat "e7e8q".toList = true ∧ checkMove "e7e8q".toList = false := by
  decide

/-- C7: both constructors of `Square` succeed when the rank lies in 1..8 and fail with
`InvalidRank` otherwise, for every file and every piece argument. -/
theorem C7_square_rank_checked (file : Nat) (rank : Int) (piece : Option Nat) :
    (1 ≤ rank ∧ rank ≤ 8 →
      Square.Square₂ file rank = Except.ok ⟨file, rank, none⟩ ∧
      Square.Square₃ file rank piece = Except.ok ⟨file, rank, piece⟩) ∧
    (¬ (1 ≤ rank ∧ rank ≤ 8) →
      Square.Square₂ file rank = Except.error HardError.InvalidRank ∧
      Square.Square₃ file rank piece = Except.error HardError.InvalidRank) := by
  constructor
  · rintro ⟨h1, h2⟩
    have h : ¬ (rank < 1 ∨ rank > 8) := by omega
    simp [Square.Square₃, Square.Square₂, h]
  · intro h
    have h' : rank < 1 ∨ rank > 8 := by omega
    simp [Square.Square₃, Square.Square₂, h', handleError]

/-- Instances of C7: rank 2 is accepted, rank 9 is refused. -/
theorem C7_square_rank_checked_witness :
    (Square.Square₂ 4 2 = Except.ok ⟨4, 2, none⟩ ∧
      Square.Square₃ 4 2 (some 7) = Except.ok ⟨4, 2, some 7⟩) ∧
    (Square.Square₂ 4 9 = Except.error HardError.InvalidRank ∧
      Square.Square₃ 4 9 (some 7) = Except.error HardError.InvalidRank) :=
  ⟨(C7_square_rank_checked 4 2 (some 7)).1 (by decide),
   (C7_square_rank_checked 4 9 (some 7)).2 (by decide)⟩

/-- C8 (amended): a piece with no promotion in effect has its base kind as `getKind`;
`promoteTo k` then succeeds, and afterwards `getKind` is `k` when `k` is not `KING`, and
still the base kind when `k` is `KING`. -/
theorem C8_getKind_after_promotion (p : Piece) (k : Kind) (h : p.promoted_ = Kind.KING) :
    p.getKind = p.kind_ ∧
    ∃ q, p.promoteTo k = Outcome.done q ∧
      (k ≠ Kind.KING → q.getKind = k) ∧ (k = Kind.KING → q.getKind = p.kind_) := by
  refine ⟨by simp [Piece.getKind, h], { p with promoted_ := k }, by simp [Piece.promoteTo, h],
    ?_, ?_⟩
  · intro hk; simp [Piece.getKind, hk]
  · intro hk; simp [Piece.getKind, hk]

/-- An instance of C8: a new pawn promoted to queen. -/
theorem C8_getKind_after_promotion_witness :
    (Piece.Piece₂ Kind.PAWN Side.WHITE).getKind = Kind.PAWN ∧
    ∃ q, (Piece.Piece₂ Kind.PAWN Side.WHITE).promoteTo Kind.QUEEN = Outcome.done q ∧
      (Kind.QUEEN ≠ Kind.KING → q.getKind = Kind.QUEEN) ∧
      (Kind.QUEEN = Kind.KING → q.getKind = Kind.PAWN) :=
  C8_getKind_after_promotion (Piece.Piece₂ Kind.PAWN Side.WHITE) Kind.QUEEN rfl

/-- C8 as stated fails for `k = KING`: after `promoteTo(KING)` a pawn still has
`getKind() = PAWN`. -/
theorem C8_counterexample_promote_to_king :
    ∃ q, (Piece.Piece₂ Kind.PAWN Side.WHITE).promoteTo Kind.KING = Outcome.done q ∧
      q.getKind = Kind.PAWN ∧ q.getKind ≠ Kind.KING :=
  ⟨Piece.Piece₂ Kind.PAWN Side.WHITE, by decide, by decide, by decide⟩

/-- C9 (amended): after a `promoteTo k` that returned, with `k` other than `KING`, every
further `promoteTo` fails with `AlreadyPromoted` and leaves the piece, and so its
effective kind `k`, as it was. -/
theorem C9_second_promotion_fails (p q : Piece) (k k2 : Kind)
    (h : p.promoteTo k = Outcome.done q) (hk : k ≠ Kind.KING) :
    q.promoteTo k2 = Outcome.failed HardError.AlreadyPromoted q ∧ q.getKind = k := by
  unfold Piece.promoteTo at h
  split at h
  · injection h with h
    subst h
    simp [Piece.promoteTo, Piece.getKind, hk]
  · exact absurd h (by simp)

/-- An instance of C9: a pawn promoted to queen cannot be promoted to rook. -/
theorem C9_second_promotion_fails_witness :
    (⟨Kind.PAWN, Side.WHITE, Kind.QUEEN, none⟩ : Piece).promoteTo Kind.ROOK
        = Outcome.failed HardError.AlreadyPromoted ⟨Kind.PAWN, Side.WHITE, Kind.QUEEN, none⟩ ∧
      (⟨Kind.PAWN, Side.WHITE, Kind.QUEEN, none⟩ : Piece).getKind = Kind.QUEEN :=
  C9_second_promotion_fails (Piece.Piece₂ Kind.PAWN Side.WHITE) _ Kind.QUEEN Kind.ROOK rfl
    (by decide)

/-- C9 as stated fails for `k = KING`: after `promoteTo(KING)` a second `promoteTo`
succeeds and changes the effective kind. -/
theorem C9_counterexample_after_king :
    ∃ q r, (Piece.Piece₂ Kind.PAWN Side.WHITE).promoteTo Kind.KING = Outcome.done q ∧
      q.promoteTo Kind.QUEEN = Outcome.done r ∧ q.getKind = Kind.PAWN ∧
      r.getKind = Kind.QUEEN :=
  ⟨Piece.Piece₂ Kind.PAWN Side.WHITE, ⟨Kind.PAWN, Side.WHITE, Kind.QUEEN, none⟩,
    by decide, by decide, by decide, by decide⟩

/-- C10: for a piece with no promotion in effect, `promoteTo k` followed by `unpromote`
gives back the piece as it was, with `getKind` the base kind, and a later `promoteTo`
succeeds. -/
theorem C10_promote_unpromote_restores (p : Piece) (k k2 : Kind)
    (h : p.promoted_ = Kind.KING) :
    ∃ q, p.promoteTo k = Outcome.done q ∧ q.unpromote = p ∧
      q.unpromote.getKind = p.kind_ ∧
      ∃ r, q.unpromote.promoteTo k2 = Outcome.done r := by
  refine ⟨{ p with promoted_ := k }, by simp [Piece.promoteTo, h], ?_, ?_, ?_⟩
  · cases p; simp_all [Piece.unpromote]
  · simp [Piece.unpromote, Piece.getKind]
  · exact ⟨{ p with promoted_ := k2 }, by simp [Piece.unpromote, Piece.promoteTo]⟩

/-- An instance of C10: a new pawn promoted to queen and unpromoted. -/
theorem C10_promote_unpromote_restores_witness :
    ∃ q, (Piece.Piece₂ Kind.PAWN Side.WHITE).promoteTo Kind.QUEEN = Outcome.done q ∧
      q.unpromote = Piece.Piece₂ Kind.PAWN Side.WHITE ∧
      q.unpromote.getKind = Kind.PAWN ∧
      ∃ r, q.unpromote.promoteTo Kind.ROOK = Outcome.done r :=
  C10_promote_unpromote_restores (Piece.Piece₂ Kind.PAWN Side.WHITE) Kind.QUEEN Kind.ROOK rfl

end BoardClaims

/-! ## The board store: `moveTo`, `changePiece` and the links of squares and pieces -/

section BoardStore

open Board

section BoardLemmas

theorem setPiece_self (h : BoardState) (s : Nat) (v : Option Nat)
    (hv : (h.squares s).piece_ = v) : h.setPiece s v = h := by
  cases h with
  | mk sq pc =>
    simp only [BoardState.setPiece, BoardState.mk.injEq, and_true]
    funext x
    by_cases hx : x = s
    · subst hx
      simp only [Function.update_same]
      simp only at hv
      rw [← hv]
    · simp [Function.update_noteq hx]

/-- Vacating a square never fails. -/
theorem changePiece_none (h : BoardState) (a : Nat) :
    Square.changePiece h a none = Outcome.done (h.setPiece a none) := by
  unfold Square.changePiece
  by_cases hv : (h.squares a).piece_ = none
  · rw [if_pos hv.symm, setPiece_self h a none hv]
  · rw [if_neg (fun e => hv e.symm)]
    simp

theorem moveTo_same (h : BoardState) (p : Nat) (t : Option Nat)
    (ht : (h.pieces p).square_ = t) : Piece.moveTo h p t = Outcome.done h := by
  simp [Piece.moveTo, ht]

theorem moveTo_other (h : BoardState) (p : Nat) (t : Option Nat)
    (ht : (h.pieces p).square_ ≠ t) :
    Piece.moveTo h p t = Piece.attach (vacated h p) p t := by
  unfold Piece.moveTo vacated
  rw [if_neg ht]
  cases hs : (h.pieces p).square_ with
  | none => rfl
  | some a => simp only [changePiece_none]

theorem attach_none (h : BoardState) (p : Nat) :
    Piece.attach h p none = Outcome.done (h.setSquare p none) := rfl

/-- Attaching to a square that is empty or already holds the piece. -/
theorem attach_free (h : BoardState) (p b : Nat)
    (hb : (h.squares b).piece_ = none ∨ (h.squares b).piece_ = some p) :
    Piece.attach h p (some b)
      = Outcome.done ((h.setSquare p (some b)).setPiece b (some p)) := by
  simp only [Piece.attach, Square.changePiece]
  have hsq : ((h.setSquare p (some b)).squares b).piece_ = (h.squares b).piece_ := rfl
  rcases hb with hb | hb
  · rw [hsq, hb]; simp
  · rw [hsq, hb, if_pos rfl, setPiece_self _ b (some p) (by rw [hsq, hb])]

/-- Attaching to a square that holds another piece fails after the assignment of
`square_`. -/
theorem attach_occupied (h : BoardState) (p b q : Nat)
    (hb : (h.squares b).piece_ = some q) (hq : q ≠ p) :
    Piece.attach h p (some b)
      = Outcome.failed HardError.OccupiedSquare (h.setSquare p (some b)) := by
  simp only [Piece.attach, Square.changePiece]
  have hsq : ((h.setSquare p (some b)).squares b).piece_ = (h.squares b).piece_ := rfl
  rw [hsq, hb]
  have : ¬ (some p = some q) := fun e => hq (Option.some.inj e).symm
  simp [this]

theorem attach_done_iff (h h' : BoardState) (p b : Nat)
    (hd : Piece.attach h p (some b) = Outcome.done h') :
    ((h.squares b).piece_ = none ∨ (h.squares b).piece_ = some p) ∧
      h' = (h.setSquare p (some b)).setPiece b (some p) := by
  cases hv : (h.squares b).piece_ with
  | none =>
    rw [attach_free h p b (Or.inl hv)] at hd
    exact ⟨Or.inl rfl, (Outcome.done.inj hd).symm⟩
  | some q =>
    by_cases hq : q = p
    · subst hq
      rw [attach_free h q b (Or.inr hv)] at hd
      exact ⟨Or.inr rfl, (Outcome.done.inj hd).symm⟩
    · rw [attach_occupied h p b q hv hq] at hd
      exact absurd hd (by simp)

end BoardLemmas

section MoveTo

/-- The state after a `moveTo` that returned and was not a no-op. -/
theorem moveTo_done_eq (h h' : BoardState) (p : Nat) (t : Option Nat)
    (ht : (h.pieces p).square_ ≠ t) (hd : Piece.moveTo h p t = Outcome.done h') :
    (t = none ∧ h' = (vacated h p).setSquare p none) ∨
    (∃ b, t = some b ∧
      (((vacated h p).squares b).piece_ = none ∨ ((vacated h p).squares b).piece_ = some p) ∧
      h' = ((vacated h p).setSquare p (some b)).setPiece b (some p)) := by
  rw [moveTo_other h p t ht] at hd
  cases t with
  | none =>
    rw [attach_none] at hd
    exact Or.inl ⟨rfl, (Outcome.done.inj hd).symm⟩
  | some b =>
    obtain ⟨h1, h2⟩ := attach_done_iff _ _ p b hd
    exact Or.inr ⟨b, rfl, h1, h2⟩

theorem vacated_pieces (h : BoardState) (p : Nat) : (vacated h p).pieces = h.pieces := by
  unfold vacated
  cases (h.pieces p).square_ <;> rfl

theorem vacated_squares (h : BoardState) (p s : Nat) :
    (vacated h p).squares s =
      if (h.pieces p).square_ = some s then { h.squares s with piece_ := none }
      else h.squares s := by
  unfold vacated
  cases hs : (h.pieces p).square_ with
  | none => simp
  | some a =>
    by_cases hx : s = a
    · subst hx; simp [BoardState.setPiece]
    · have : ¬ a = s := fun e => hx e.symm
      simp [BoardState.setPiece, Function.update_noteq hx, this]

/-- C11: after a `moveTo(t)` that returns, with `t` not the current square of the piece
`p`: the square of `p` is `t`, the former square of `p` holds no piece, `t` holds `p`, and
every other square and every other piece is as before. -/
theorem C11_moveTo_frame (h h' : BoardState) (p : Nat) (t : Option Nat)
    (ht : (h.pieces p).square_ ≠ t) (hd : Piece.moveTo h p t = Outcome.done h') :
    (h'.pieces p).square_ = t ∧
    (∀ a, (h.pieces p).square_ = some a → (h'.squares a).piece_ = none) ∧
    (∀ b, t = some b → (h'.squares b).piece_ = some p) ∧
    (∀ s, (h.pieces p).square_ ≠ some s → t ≠ some s → h'.squares s = h.squares s) ∧
    (∀ q, q ≠ p → h'.pieces q = h.pieces q) := by
  rcases moveTo_done_eq h h' p t ht hd with ⟨rfl, rfl⟩ | ⟨b, rfl, _, rfl⟩
  · refine ⟨by simp [BoardState.setSquare], ?_, by simp, ?_, ?_⟩
    · intro a ha
      simp [BoardState.setSquare, vacated_squares, ha]
    · intro s hs _
      simp [BoardState.setSquare, vacated_squares, hs]
    · intro q hq
      simp [BoardState.setSquare, vacated_pieces, Function.update_noteq hq]
  · refine ⟨by simp [BoardState.setSquare, BoardState.setPiece], ?_, ?_, ?_, ?_⟩
    · intro a ha
      have hab : a ≠ b := by rintro rfl; exact ht ha
      simp [BoardState.setSquare, BoardState.setPiece, Function.update_noteq hab,
        vacated_squares, ha]
    · intro b' hb'
      cases hb'
      simp [BoardState.setSquare, BoardState.setPiece]
    · intro s hs hsb
      have hne : s ≠ b := by rintro rfl; exact hsb rfl
      simp [BoardState.setSquare, BoardState.setPiece, Function.update_noteq hne,
        vacated_squares, hs]
    · intro q hq
      simp [BoardState.setSquare, BoardState.setPiece, vacated_pieces,
        Function.update_noteq hq]

/-- After a `moveTo(t)` that returns, the square of the piece is `t`. -/
theorem moveTo_square (h h' : BoardState) (p : Nat) (t : Option Nat)
    (hd : Piece.moveTo h p t = Outcome.done h') : (h'.pieces p).square_ = t := by
  by_cases ht : (h.pieces p).square_ = t
  · rw [moveTo_same h p t ht] at hd
    rw [← Outcome.done.inj hd]; exact ht
  · rcases moveTo_done_eq h h' p t ht hd with ⟨rfl, rfl⟩ | ⟨b, rfl, _, rfl⟩
    · simp [BoardState.setSquare]
    · simp [BoardState.setSquare, BoardState.setPiece]

/-- C13: a `moveTo(t)` that returns can be repeated: the second call returns and leaves
the state of the first; a `moveTo` onto the current square of the piece changes
nothing. -/
theorem C13_moveTo_idempotent (h h' : BoardState) (p : Nat) (t : Option Nat)
    (hd : Piece.moveTo h p t = Outcome.done h') :
    Piece.moveTo h' p t = Outcome.done h' ∧
    Piece.moveTo h p (h.pieces p).square_ = Outcome.done h :=
  ⟨moveTo_same h' p t (moveTo_square h h' p t hd), moveTo_same h p _ rfl⟩

/-- C15 (amended): `moveTo(b)` of the piece `p` standing on `a` onto another square `b`
that holds another piece `q` fails with `OccupiedSquare`; when the error is raised `b`
still holds `q` and every piece other than `p` and every square other than `a` is as
before, while `a` is already vacated and the square of `p` is already `b`. -/
theorem C15_moveTo_occupied (h : BoardState) (p q a b : Nat)
    (hp : (h.pieces p).square_ = some a) (hab : a ≠ b)
    (hb : (h.squares b).piece_ = some q) (hq : q ≠ p) :
    ∃ h', Piece.moveTo h p (some b) = Outcome.failed HardError.OccupiedSquare h' ∧
      (h'.squares b).piece_ = some q ∧
      (∀ r, r ≠ p → h'.pieces r = h.pieces r) ∧
      (∀ s, s ≠ a → h'.squares s = h.squares s) ∧
      (h'.squares a).piece_ = none ∧ (h'.pieces p).square_ = some b := by
  have ht : (h.pieces p).square_ ≠ some b := by
    rw [hp]; intro e; exact hab (Option.some.inj e)
  have hvb : ((vacated h p).squares b).piece_ = some q := by
    have : ¬ a = b := hab
    simp [vacated_squares, hp, this, hb]
  refine ⟨(vacated h p).setSquare p (some b), ?_, ?_, ?_, ?_, ?_, ?_⟩
  · rw [moveTo_other h p _ ht, attach_occupied _ p b q hvb hq]
  · simpa [BoardState.setSquare] using hvb
  · intro r hr
    simp [BoardState.setSquare, vacated_pieces, Function.update_noteq hr]
  · intro s hs
    have : ¬ a = s := fun e => hs e.symm
    simp [BoardState.setSquare, vacated_squares, hp, this]
  · simp [BoardState.setSquare, vacated_squares, hp]
  · simp [BoardState.setSquare]

end MoveTo

section Links

theorem linked_new₂ (n : Nat) (h : BoardState) (kind : Kind) (color : Side)
    (hl : Linked n h) : Linked (n + 1) (Piece.new₂ h n kind color) := by
  intro s p
  have hsq : ((Piece.new₂ h n kind color).squares s) = h.squares s := rfl
  rw [hsq, hl s p]
  by_cases hp : p = n
  · subst hp
    simp [Piece.new₂, Piece.Piece₂]
  · have : p < n + 1 ↔ p < n := by omega
    simp [Piece.new₂, Function.update_noteq hp, this]

/-- A `moveTo` that returns keeps the links consistent. -/
theorem linked_moveTo (n : Nat) (h h' : BoardState) (p : Nat) (t : Option Nat)
    (hl : Linked n h) (hp : p < n) (hd : Piece.moveTo h p t = Outcome.done h') :
    Linked n h' := by
  by_cases ht : (h.pieces p).square_ = t
  · rw [moveTo_same h p t ht] at hd
    rw [← Outcome.done.inj hd]; exact hl
  · have hown : ∀ s, (h.squares s).piece_ = some p ↔ (h.pieces p).square_ = some s :=
      fun s => by rw [hl s p]; simp [hp]
    have key1 : ∀ s q, q ≠ p → (h.pieces p).square_ = some s →
        ¬ (q < n ∧ (h.pieces q).square_ = some s) := by
      intro s q hq hs hc
      have h1 := (hl s q).2 hc
      rw [(hown s).2 hs] at h1
      exact hq (Option.some.inj h1).symm
    rcases moveTo_done_eq h h' p t ht hd with ⟨rfl, rfl⟩ | ⟨b, rfl, hfree, rfl⟩
    · intro s q
      simp only [BoardState.setSquare, vacated_squares, vacated_pieces]
      by_cases hq : q = p
      · subst hq
        by_cases hs : (h.pieces q).square_ = some s
        · simp [hs]
        · simp [hs, hown s]
      · rw [Function.update_noteq hq]
        by_cases hs : (h.pieces p).square_ = some s
        · simp [hs, key1 s q hq hs]
        · simp [hs, hl s q]
    · have hPb : (h.pieces p).square_ ≠ some b := ht
      have hb : (h.squares b).piece_ = none := by
        simp only [vacated_squares, hPb, if_false] at hfree
        rcases hfree with h1 | h1
        · exact h1
        · exact absurd ((hown b).1 h1) hPb
      have key2 : ∀ q, ¬ (q < n ∧ (h.pieces q).square_ = some b) := by
        intro q hc
        have h1 := (hl b q).2 hc
        rw [hb] at h1
        exact absurd h1 (by simp)
      intro s q
      simp only [BoardState.setSquare, BoardState.setPiece, vacated_squares, vacated_pieces]
      by_cases hsb : s = b
      · subst hsb
        by_cases hq : q = p
        · subst hq; simp [hp]
        · have : ¬ p = q := fun e => hq e.symm
          simp [Function.update_noteq hq, key2 q, this]
      · rw [Function.update_noteq hsb]
        have hbs : ¬ b = s := fun e => hsb e.symm
        by_cases hq : q = p
        · subst hq
          by_cases hs : (h.pieces q).square_ = some s
          · simp [vacated_squares, hs, hbs]
          · simp [vacated_squares, hs, hown s, hbs]
        · rw [Function.update_noteq hq]
          by_cases hs : (h.pieces p).square_ = some s
          · simp [vacated_squares, hs, key1 s q hq hs]
          · simp [vacated_squares, hs, hl s q]

theorem linked_new₃ (n : Nat) (h h' : BoardState) (kind : Kind) (color : Side)
    (square : Option Nat) (hl : Linked n h)
    (hc : Piece.new₃ h n kind color square = Outcome.done h') : Linked (n + 1) h' := by
  unfold Piece.new₃ at hc
  split at hc
  · exact linked_moveTo (n + 1) _ h' n square (linked_new₂ n h kind color hl)
      (Nat.lt_succ_self n) hc
  · rw [← Outcome.done.inj hc]
    exact linked_new₂ n h kind color hl

theorem linked_of_reachable (n : Nat) (h : BoardState) (hr : Reachable n h) : Linked n h := by
  induction hr with
  | empty h hempty => intro s p; simp [hempty s]
  | piece₂ kind color _ ih => exact linked_new₂ _ _ kind color ih
  | piece₃ kind color square _ hc ih => exact linked_new₃ _ _ _ kind color square ih hc
  | moveTo p t _ hp hm ih => exact linked_moveTo _ _ _ p t ih hp hm

/-- C12: in every state reached from a board of empty squares by constructing pieces and
by `moveTo` calls that return, a square holds the piece `p` if and only if `p` is a piece
of the board whose back-reference is that square; so no piece is held by two squares and
no square is referenced by two pieces. -/
theorem C12_links_consistent (n : Nat) (h : BoardState) (hr : Reachable n h) :
    Linked n h ∧
    (∀ s1 s2 p, (h.squares s1).piece_ = some p → (h.squares s2).piece_ = some p → s1 = s2) ∧
    (∀ p q s, p < n → q < n → (h.pieces p).square_ = some s →
      (h.pieces q).square_ = some s → p = q) := by
  have hl := linked_of_reachable n h hr
  refine ⟨hl, ?_, ?_⟩
  · intro s1 s2 p h1 h2
    have e1 := ((hl s1 p).1 h1).2
    have e2 := ((hl s2 p).1 h2).2
    rw [e1] at e2
    exact Option.some.inj e2
  · intro p q s hp hq h1 h2
    have e1 := (hl s p).2 ⟨hp, h1⟩
    have e2 := (hl s q).2 ⟨hq, h2⟩
    rw [e1] at e2
    exact Option.some.inj e2

end Links

section BoardWitnesses

theorem linked_twoPawns : Linked 2 twoPawns := by
  intro s p
  simp only [twoPawns, firstTwo]
  by_cases hs : s < 2 <;> by_cases hp : p < 2 <;> simp [hs, hp] <;> omega

/-- An instance of C11: the pawn 0 moves from the square 0 to the empty square 5. -/
theorem C11_moveTo_frame_witness :
    ∃ h', Piece.moveTo twoPawns 0 (some 5) = Outcome.done h' ∧
      (h'.pieces 0).square_ = some 5 ∧ (h'.squares 0).piece_ = none ∧
      (h'.squares 5).piece_ = some 0 ∧ h'.squares 1 = twoPawns.squares 1 ∧
      h'.pieces 1 = twoPawns.pieces 1 :=
  have hd : Piece.moveTo twoPawns 0 (some 5)
      = Outcome.done (((vacated twoPawns 0).setSquare 0 (some 5)).setPiece 5 (some 0)) := rfl
  have r := C11_moveTo_frame twoPawns _ 0 (some 5) (by decide) hd
  ⟨_, hd, r.1, r.2.1 0 rfl, r.2.2.1 5 rfl, r.2.2.2.1 1 (by decide) (by decide),
    r.2.2.2.2 1 (by decide)⟩

/-- An instance of C12: a pawn constructed on the square 12 of the empty board. -/
theorem C12_links_consistent_witness :
    ∃ h, Piece.new₃ emptyBoard 0 Kind.PAWN Side.WHITE (some 12) = Outcome.done h ∧
      Linked 1 h ∧ (h.squares 12).piece_ = some 0 :=
  have hc : Piece.new₃ emptyBoard 0 Kind.PAWN Side.WHITE (some 12)
      = Outcome.done (((Piece.new₂ emptyBoard 0 Kind.PAWN Side.WHITE).setSquare 0
          (some 12)).setPiece 12 (some 0)) := rfl
  ⟨_, hc, (C12_links_consistent 1 _ (Reachable.piece₃ Kind.PAWN Side.WHITE (some 12)
    (Reachable.empty emptyBoard (fun _ => rfl)) hc)).1, rfl⟩

/-- An instance of C13: the move of the pawn 0 to the square 5, repeated. -/
theorem C13_moveTo_idempotent_witness :
    ∃ h', Piece.moveTo twoPawns 0 (some 5) = Outcome.done h' ∧
      Piece.moveTo h' 0 (some 5) = Outcome.done h' ∧
      Piece.moveTo twoPawns 0 (some 0) = Outcome.done twoPawns :=
  have hd : Piece.moveTo twoPawns 0 (some 5)
      = Outcome.done (((vacated twoPawns 0).setSquare 0 (some 5)).setPiece 5 (some 0)) := rfl
  have r := C13_moveTo_idempotent twoPawns _ 0 (some 5) hd
  ⟨_, hd, r.1, r.2⟩

/-- An instance of C15: the pawn 0 is moved onto the square 1, which holds the pawn 1. -/
theorem C15_moveTo_occupied_witness :
    ∃ h', Piece.moveTo twoPawns 0 (some 1) = Outcome.failed HardError.OccupiedSquare h' ∧
      (h'.squares 1).piece_ = some 1 ∧
      (∀ r, r ≠ 0 → h'.pieces r = twoPawns.pieces r) ∧
      (∀ s, s ≠ 0 → h'.squares s = twoPawns.squares s) ∧
      (h'.squares 0).piece_ = none ∧ (h'.pieces 0).square_ = some 1 :=
  C15_moveTo_occupied twoPawns 0 1 0 1 rfl (by decide) rfl (by decide)

/-- C15 as stated fails: on the consistent board `twoPawns` the move of the pawn 0 from
the square 0 onto the occupied square 1 fails with `OccupiedSquare`, and at that point the
square 0 no longer holds the pawn and the pawn names the square 1. -/
theorem C15_counterexample_not_atomic :
    Linked 2 twoPawns ∧
    (twoPawns.pieces 0).square_ = some 0 ∧ (twoPawns.squares 0).piece_ = some 0 ∧
    (twoPawns.squares 1).piece_ = some 1 ∧
    ∃ h', Piece.moveTo twoPawns 0 (some 1) = Outcome.failed HardError.OccupiedSquare h' ∧
      (h'.squares 0).piece_ = none ∧ (h'.pieces 0).square_ = some 1 :=
  ⟨linked_twoPawns, rfl, rfl, rfl, (vacated twoPawns 0).setSquare 0 (some 1), rfl, rfl, rfl⟩

end BoardWitnesses

section FreeFunctions

/-- C14: `getSideFromString` returns `WHITE` exactly for `w` and `white`, `BLACK` exactly
for `b` and `black`, and fails with `ParseError` for every other string. -/
theorem C14_getSideFromString_exact (s : List Char) :
    (getSideFromString s = Except.ok Side.WHITE ↔ s = "w".toList ∨ s = "white".toList) ∧
    (getSideFromString s = Except.ok Side.BLACK ↔ s = "b".toList ∨ s = "black".toList) ∧
    (s ∉ ["w".toList, "white".toList, "b".toList, "black".toList] →
      getSideFromString s = Except.error HardError.ParseError) := by
  by_cases h1 : s = "w".toList
  · subst h1; simp [getSideFromString]
  by_cases h2 : s = "white".toList
  · subst h2; simp [getSideFromString]
  by_cases h3 : s = "b".toList
  · subst h3; simp [getSideFromString]
  by_cases h4 : s = "black".toList
  · subst h4; simp [getSideFromString]
  simp at h1 h2 h3 h4
  simp [getSideFromString, handleError, h1, h2, h3, h4]

/-- Instances of C14: the strings of the spec, and an upper-case `W`. -/
theorem C14_getSideFromString_exact_witness :
    getSideFromString "white".toList = Except.ok Side.WHITE ∧
    getSideFromString "b".toList = Except.ok Side.BLACK ∧
    getSideFromString "x".toList = Except.error HardError.ParseError ∧
    getSideFromString "W".toList = Except.error HardError.ParseError :=
  ⟨(C14_getSideFromString_exact "white".toList).1.2 (Or.inr rfl),
   (C14_getSideFromString_exact "b".toList).2.1.2 (Or.inl rfl),
   (C14_getSideFromString_exact "x".toList).2.2 (by decide),
   (C14_getSideFromString_exact "W".toList).2.2 (by decide)⟩

theorem fifth_char_always_rejected (e : Char) :
    (e != 'q' || e != 'n' || e != 'b' || e != 'r') = true := by
  by_cases h : e = 'q'
  · subst h; decide
  · simp [h]

/-- C20: `checkMove` accepts exactly the strings of four characters with the first and
third in `a..h` and the second and fourth in `1..8`; it rejects every string of five
characters and every string of another length. -/
theorem C20_checkMove_exact (mv : List Char) :
    (checkMove mv = true ↔
      ∃ f1 r1 f2 r2, mv = [f1, r1, f2, r2] ∧ 'a' ≤ f1 ∧ f1 ≤ 'h' ∧ '1' ≤ r1 ∧ r1 ≤ '8' ∧
        'a' ≤ f2 ∧ f2 ≤ 'h' ∧ '1' ≤ r2 ∧ r2 ≤ '8') ∧
    (mv.length ≠ 4 → checkMove mv = false) := by
  match mv with
  | [] => simp [checkMove]
  | [_] => simp [checkMove]
  | [_, _] => simp [checkMove]
  | [_, _, _] => simp [checkMove]
  | [f1, r1, f2, r2] =>
    simp only [checkMove, charAt, List.length_cons, List.length_nil, List.getD_cons_zero,
      List.getD_cons_succ]
    simp only [List.cons.injEq, and_true, gt_iff_lt, Bool.or_eq_true, decide_eq_true_eq,
      ne_eq, not_true_eq_false, false_implies]
    simp
    constructor
    · rintro ⟨⟨⟨⟨⟨⟨⟨a1, a2⟩, a3⟩, a4⟩, a5⟩, a6⟩, a7⟩, a8⟩
      exact ⟨f1, r1, f2, r2, ⟨rfl, rfl, rfl, rfl⟩, a2, a1, a4, a3, a6, a5, a8, a7⟩
    · rintro ⟨_, _, _, _, ⟨rfl, rfl, rfl, rfl⟩, a1, a2, a3, a4, a5, a6, a7, a8⟩
      exact ⟨⟨⟨⟨⟨⟨⟨a2, a1⟩, a4⟩, a3⟩, a6⟩, a5⟩, a8⟩, a7⟩
  | [f1, r1, f2, r2, e] =>
    have := fifth_char_always_rejected e
    simp only [checkMove, charAt, List.length_cons, List.length_nil, List.getD_cons_zero,
      List.getD_cons_succ] at this ⊢
    simp [this]
  | _ :: _ :: _ :: _ :: _ :: _ :: _ => simp [checkMove]

/-- Instances of C20: `e2e4` is accepted, the promotion move `e7e8q` is rejected. -/
theorem C20_checkMove_exact_witness :
    checkMove "e2e4".toList = true ∧ checkMove "e7e8q".toList = false :=
  ⟨(C20_checkMove_exact "e2e4".toList).1.2
      ⟨'e', '2', 'e', '4', rfl, by decide, by decide, by decide, by decide, by decide,
        by decide, by decide, by decide⟩,
   (C20_checkMove_exact "e7e8q".toList).2 (by decide)⟩

end FreeFunctions

end BoardStore

/-! ## The receive loop, and further claims on the parser -/

section Run

/-- The loop of `run` has no exit of its own: with a `getline` that always returns, `run`
has not returned after any number of passes. -/
theorem run_none_of_total {σ ε : Type} (gl : σ → List Char → Except ε (σ × List Char))
    (hgl : ∀ i str, ∃ p, gl i str = Except.ok p) :
    ∀ (n : Nat) (r : RunState σ), run gl n r = none := by
  intro n
  induction n with
  | zero => intro r; rfl
  | succ n ih =>
    intro r
    obtain ⟨p, hp⟩ := hgl r.input r.str
    simp only [run, runPass, hp]
    exact ih _

theorem getline_line (l rest : List Char) (str : List Char) (hl : isLine l = true) :
    getline ⟨l ++ '\n' :: rest⟩ str = Except.ok (⟨rest⟩, l) := by
  have hall : ∀ c ∈ l, (c != '\n') = true := by
    simpa [isLine, List.all_eq_true] using hl
  have h := takeWhile_append_stop (p := fun c => c != '\n') l ('\n' :: rest) hall (by simp)
  simp [getline, h.1, h.2]

theorem getline_last (l : List Char) (str : List Char) (hl : isLine l = true)
    (hne : l ≠ []) : getline ⟨l⟩ str = Except.ok (⟨[]⟩, l) := by
  have hall : ∀ c ∈ l, (c != '\n') = true := by
    simpa [isLine, List.all_eq_true] using hl
  have hd : l.dropWhile (fun c => c != '\n') = [] := by
    rw [List.dropWhile_eq_nil_iff]
    exact hall
  simp [getline, hd, hne]

theorem getline_closed (str : List Char) :
    getline ⟨[]⟩ str = Except.error StreamFailure.Closed := by
  simp [getline]

theorem run_closed (fuel : Nat) (str : List Char) (out : List (List Char)) :
    run getline (fuel + 1) ⟨⟨[]⟩, str, out⟩
      = some (StreamFailure.Closed, ⟨⟨[]⟩, str, out⟩) := by
  simp [run, runPass, getline_closed]

theorem run_lines : ∀ (lines : List (List Char)), (∀ l ∈ lines, isLine l = true) →
    ∀ (rest str : List Char) (out : List (List Char)) (fuel : Nat),
      run getline (lines.length + fuel) ⟨⟨linesText lines ++ rest⟩, str, out⟩
        = run getline fuel ⟨⟨rest⟩, lines.getLast?.getD str, out ++ lines⟩ := by
  intro lines
  induction lines with
  | nil => intro _ rest str out fuel; simp [linesText]
  | cons l ls ih =>
    intro hl rest str out fuel
    have h1 := getline_line l (linesText ls ++ rest) str (hl l (by simp))
    have hf : (l :: ls).length + fuel = (ls.length + fuel) + 1 := by
      simp only [List.length_cons]; omega
    rw [hf]
    simp only [linesText, List.append_assoc, List.cons_append, run, runPass, h1]
    rw [ih (fun x hx => hl x (by simp [hx]))]
    cases ls with
    | nil => simp
    | cons a t =>
      have hg : (a :: t).getLast? = some ((a :: t).getLast (List.cons_ne_nil a t)) :=
        List.getLast?_eq_getLast _ _
      simp [hg]

theorem run_lines_short : ∀ (lines : List (List Char)), (∀ l ∈ lines, isLine l = true) →
    ∀ (rest str : List Char) (out : List (List Char)) (n : Nat), n ≤ lines.length →
      run getline n ⟨⟨linesText lines ++ rest⟩, str, out⟩ = none := by
  intro lines
  induction lines with
  | nil =>
    intro _ rest str out n hn
    have : n = 0 := by simpa using hn
    subst this
    rfl
  | cons l ls ih =>
    intro hl rest str out n hn
    cases n with
    | zero => rfl
    | succ n =>
      have h1 := getline_line l (linesText ls ++ rest) str (hl l (by simp))
      simp only [linesText, List.append_assoc, List.cons_append, run, runPass, h1]
      exact ih (fun x hx => hl x (by simp [hx])) rest l (out ++ [l]) n
        (by simpa using hn)

/-- C18: on an input of finitely many lines followed by closure, `run` hands each line
to `parseMessage` exactly once, in stream order, and is left when the stream closes,
with no further call of `parseMessage`: whether every line ends in a newline or the
stream is closed after a last line `last` without one.  The loop is not left before the
lines are read. -/
theorem C18_run_dispatches_once_and_terminates (lines : List (List Char))
    (last : List Char) (hl : ∀ l ∈ lines, isLine l = true) (hlast : isLine last = true)
    (hne : last ≠ []) (fuel : Nat) (hf : lines.length + 1 < fuel) :
    run getline fuel (RunState.start ⟨linesText lines⟩)
      = some (StreamFailure.Closed, ⟨⟨[]⟩, lines.getLast?.getD [], lines⟩) ∧
    run getline fuel (RunState.start ⟨linesText lines ++ last⟩)
      = some (StreamFailure.Closed, ⟨⟨[]⟩, last, lines ++ [last]⟩) ∧
    (∀ n, n ≤ lines.length →
      run getline n (RunState.start ⟨linesText lines⟩) = none ∧
      run getline n (RunState.start ⟨linesText lines ++ last⟩) = none) := by
  obtain ⟨k, rfl⟩ : ∃ k, fuel = lines.length + (k + 2) := ⟨fuel - lines.length - 2, by omega⟩
  refine ⟨?_, ?_, ?_⟩
  · have h := run_lines lines hl [] [] [] (k + 2)
    simp only [List.append_nil, List.nil_append] at h
    rw [RunState.start, h, run_closed]
  · have h := run_lines lines hl last [] [] (k + 2)
    simp only [List.nil_append] at h
    rw [RunState.start, h]
    have h2 : run getline (k + 2) ⟨⟨last⟩, lines.getLast?.getD [], lines⟩
        = run getline (k + 1) ⟨⟨[]⟩, last, lines ++ [last]⟩ := by
      simp [run, runPass, getline_last last _ hlast hne]
    rw [h2, run_closed]
  · intro n hn
    have h1 := run_lines_short lines hl [] [] [] n hn
    simp only [List.append_nil] at h1
    exact ⟨h1, run_lines_short lines hl last [] [] n hn⟩

/-- An instance of C18: the lines `readyok` and `bestmove e2e4`, then closure, and the
same with a third line `uciok` that the closure leaves without a newline. -/
theorem C18_run_dispatches_once_and_terminates_witness :
    run getline 5 (RunState.start ⟨"readyok\nbestmove e2e4\n".toList⟩)
      = some (StreamFailure.Closed,
          ⟨⟨[]⟩, "bestmove e2e4".toList, ["readyok".toList, "bestmove e2e4".toList]⟩) ∧
    run getline 5 (RunState.start ⟨"readyok\nbestmove e2e4\nuciok".toList⟩)
      = some (StreamFailure.Closed,
          ⟨⟨[]⟩, "uciok".toList,
            ["readyok".toList, "bestmove e2e4".toList, "uciok".toList]⟩) ∧
    (∀ n, n ≤ 2 →
      run getline n (RunState.start ⟨"readyok\nbestmove e2e4\n".toList⟩) = none ∧
      run getline n (RunState.start ⟨"readyok\nbestmove e2e4\nuciok".toList⟩) = none) :=
  C18_run_dispatches_once_and_terminates ["readyok".toList, "bestmove e2e4".toList]
    "uciok".toList (by decide) (by decide) (by decide) 5 (by decide)

end Run

section SlotIndex

theorem takeSign_no_minus (l : List Char) (h : '-' ∉ l) : (takeSign l).1 = false := by
  unfold takeSign
  split
  · exact absurd (List.mem_cons_self _ _) h
  · rfl
  · rfl

/-- Without a minus sign in the text, no negative `int` is read. -/
theorem getInt_nonneg (s : IStream) (old : Int) (h : '-' ∉ s.buf)
    (ho : 0 ≤ old ∧ old ≤ INT_MAX) :
    0 ≤ (getInt s old).1 ∧ (getInt s old).1 ≤ INT_MAX := by
  unfold getInt
  split
  · split
    · exact ho
    · rename_i c cs hk
      have hsuf : (c :: cs) <:+ s.buf := hk ▸ skipWs_suffix s.buf
      have hm : '-' ∉ c :: cs := fun hc => h (hsuf.subset hc)
      have hsg := takeSign_no_minus (c :: cs) hm
      simp only [hsg, Bool.false_eq_true, if_false]
      simp only [INT_MAX, INT_MIN] at *
      split_ifs <;> simp <;> omega
  · exact ho

theorem readMoves_suffix : ∀ (f : Nat) (s : IStream) (tok : List Char)
    (mv : List (List Char)) (m : IStream × List Char × List (List Char)),
    readMoves f s tok mv = some m → m.1.buf <:+ s.buf := by
  intro f
  induction f with
  | zero => intro s tok mv m h; simp [readMoves] at h
  | succ f ih =>
    intro s tok mv m h
    simp only [readMoves] at h
    split at h
    · exact (ih _ _ _ _ h).trans (getToken_suffix s tok)
    · rw [← Option.some.inj h]
      exact getToken_suffix s tok

/-- Without a minus sign in the text, the slot id stays within `0 .. INT_MAX`. -/
theorem infoLoop_lineId : ∀ (f : Nat) (s : IStream) (st r : InfoState),
    infoLoop f s st = some r → '-' ∉ s.buf →
    (0 ≤ st.curLineId ∧ st.curLineId ≤ INT_MAX) →
    (0 ≤ r.curLineId ∧ r.curLineId ≤ INT_MAX) := by
  intro f
  induction f with
  | zero => intro s st r h; simp [infoLoop] at h
  | succ f ih =>
    intro s st r h hm ho
    cases hok : (getToken s st.token).2.ok with
    | false =>
      rw [infoLoop_exit _ _ _ hok] at h
      rw [← Option.some.inj h]; exact ho
    | true =>
      have hsuf := getToken_suffix s st.token
      have close : ∀ (s2 : IStream) (st2 : InfoState),
          infoLoop f s2 st2 = some r → s2.buf <:+ (getToken s st.token).2.buf →
          (0 ≤ st2.curLineId ∧ st2.curLineId ≤ INT_MAX) →
          (0 ≤ r.curLineId ∧ r.curLineId ≤ INT_MAX) :=
        fun s2 st2 h2 hs2 ho2 =>
          ih s2 st2 r h2 (fun hc => hm ((hs2.trans hsuf).subset hc)) ho2
      have hm1 : '-' ∉ (getToken s st.token).2.buf := fun hc => hm (hsuf.subset hc)
      generalize hg : getToken s st.token = g at hok hsuf close hm1
      obtain ⟨t, s1⟩ := g
      simp only at hok hsuf close hm1
      by_cases h1 : t = "depth".toList
      · subst h1
        rw [infoLoop_depth _ _ _ _ hg hok] at h
        exact close _ _ h (getInt_suffix _ _) ho
      by_cases h2 : t = "time".toList
      · subst h2
        rw [infoLoop_time _ _ _ _ hg hok] at h
        exact close _ _ h (getInt_suffix _ _) ho
      by_cases h3 : t = "pv".toList
      · subst h3
        rw [infoLoop_pv _ _ _ _ hg hok] at h
        cases hr : readMoves f s1 "pv".toList st.curMoves with
        | none => rw [hr] at h; simp at h
        | some m =>
          rw [hr, Option.some_bind] at h
          exact close _ _ h (readMoves_suffix _ _ _ _ _ hr) ho
      by_cases h4 : t = "multipv".toList
      · subst h4
        rw [infoLoop_multipv _ _ _ _ hg hok] at h
        exact close _ _ h (getInt_suffix _ _) (getInt_nonneg s1 _ hm1 ho)
      by_cases h5 : t = "score".toList
      · subst h5
        generalize hg2 : getToken s1 "score".toList = g2 at h
        obtain ⟨t2, s2⟩ := g2
        have hs2 : s2.buf <:+ s1.buf := by
          have := getToken_suffix s1 "score".toList
          rw [hg2] at this; exact this
        by_cases hmt : t2 = "mate".toList
        · subst hmt
          rw [infoLoop_score_mate _ _ _ _ _ hg hok hg2] at h
          exact close _ _ h ((getFloat_suffix _ _).trans hs2) ho
        by_cases hc : t2 = "cp".toList
        · subst hc
          rw [infoLoop_score_cp _ _ _ _ _ hg hok hg2] at h
          exact close _ _ h ((getFloat_suffix _ _).trans hs2) ho
        · rw [infoLoop_score_other _ _ _ _ _ t2 hg hok hg2 hmt hc] at h
          exact close _ _ h hs2 ho
      by_cases h6 : t = "hashfull".toList
      · subst h6
        rw [infoLoop_hashfull _ _ _ _ hg hok] at h
        exact close _ _ h (getToken_suffix _ _) ho
      by_cases h7 : t = "nps".toList
      · subst h7
        rw [infoLoop_nps _ _ _ _ hg hok] at h
        exact close _ _ h (getInt_suffix _ _) ho
      · have hact : acting.contains t = false := by
          simp at h1 h2 h3 h4 h5 h6 h7
          simp [acting, h1, h2, h3, h4, h5, h6, h7]
        rw [infoLoop_skip _ _ _ _ t hg hok hact] at h
        exact close _ _ h (List.suffix_refl _) ho

end SlotIndex

section SlotIndexClaims

theorem foldl_effect_lineId_range (fs : List Field) : ∀ (st : InfoState),
    (∀ f ∈ fs, f.wf = true) → (∀ i, Field.multipv i ∈ fs → 0 ≤ i) →
    (0 ≤ st.curLineId ∧ st.curLineId ≤ INT_MAX) →
    (0 ≤ (fs.foldl Field.effect st).curLineId ∧
      (fs.foldl Field.effect st).curLineId ≤ INT_MAX) := by
  induction fs with
  | nil => intro st _ _ h; exact h
  | cons f fs ih =>
    intro st hwf hpos ho
    rw [List.foldl_cons]
    apply ih _ (fun g hg => hwf g (List.mem_cons_of_mem _ hg))
      (fun i hi => hpos i (List.mem_cons_of_mem _ hi))
    cases f with
    | multipv i =>
      have h1 := hwf _ (List.mem_cons_self _ _)
      simp only [Field.wf, inInt, decide_eq_true_eq] at h1
      exact ⟨hpos i (List.mem_cons_self _ _), h1.2⟩
    | _ => exact ho

/-- The `updateLine` calls of `infoFinish` carry the slot id less one. -/
theorem infoFinish_updateLine (r : InfoState) (idx : Int) (l : Line)
    (hc : ∀ c ∈ r.calls, isUpdateLine c = false)
    (hmem : Call.updateLine idx l ∈ infoFinish r) :
    r.curLineId ≠ 0 ∧ idx = wrapInt (r.curLineId - 1) := by
  rcases infoFinish_cases r with h | ⟨_, _, _, h4, h⟩
  · rw [h] at hmem
    have := hc _ hmem
    simp [isUpdateLine] at this
  · rw [h] at hmem
    rcases List.mem_append.1 hmem with hm | hm
    · have := hc _ hm
      simp [isUpdateLine] at this
    · simp at hm
      exact ⟨h4, hm.1⟩

theorem slot_nonneg (r : InfoState) (idx : Int) (l : Line)
    (hc : ∀ c ∈ r.calls, isUpdateLine c = false)
    (hr : 0 ≤ r.curLineId ∧ r.curLineId ≤ INT_MAX)
    (hmem : Call.updateLine idx l ∈ infoFinish r) : 0 ≤ idx := by
  obtain ⟨h0, hi⟩ := infoFinish_updateLine r idx l hc hmem
  rw [hi, wrapInt_pred _ (by omega) hr.2]
  omega

/-- C19 (amended): every `updateLine` call carries a slot index `≥ 0` for every line in
which no minus sign occurs, and for every line of well-formed fields whose `multipv`
values are not negative. -/
theorem C19_slot_index_nonneg :
    (∀ (msg : List Char) (calls : List Call) (idx : Int) (l : Line),
      '-' ∉ msg → parseMessage msg = some calls → Call.updateLine idx l ∈ calls → 0 ≤ idx) ∧
    (∀ (sep trail : List Char) (fs : List Field) (moves : List (List Char))
      (calls : List Call) (idx : Int) (l : Line),
      isSep sep = true → isWs trail = true → (∀ f ∈ fs, f.wf = true) →
      (∀ m ∈ moves, isTok m = true) → (∀ i, Field.multipv i ∈ fs → 0 ≤ i) →
      parseMessage ("info".toList ++ (fieldsText sep fs ++ pvText sep moves trail))
        = some calls →
      Call.updateLine idx l ∈ calls → 0 ≤ idx) := by
  constructor
  · intro msg calls idx l hminus hp hmem
    rcases parseMessage_cases msg with h | h | h | h
    · rw [h] at hp; rw [← Option.some.inj hp] at hmem; simp at hmem
    · rw [h] at hp; rw [← Option.some.inj hp] at hmem; simp at hmem
    · rw [h] at hp; rw [← Option.some.inj hp] at hmem; simp at hmem
    · have hsuf : (getToken ⟨msg, true⟩ []).2.buf <:+ msg := getToken_suffix ⟨msg, true⟩ []
      obtain ⟨r0, hr0, ⟨e, he, hne⟩, _⟩ := infoLoop_total _ (getToken ⟨msg, true⟩ []).2
        InfoState.init (fuelNeeded_le _)
      have hloop := hr0 _ (Nat.le_refl _)
      have hinfo : info (getToken ⟨msg, true⟩ []).2 = some (infoFinish r0) := by
        simp [info, hloop]
      rw [h, hinfo] at hp
      rw [← Option.some.inj hp] at hmem
      simp only [InfoState.init, List.nil_append] at he
      have hc : ∀ c ∈ r0.calls, isUpdateLine c = false := he ▸ hne
      have hr := infoLoop_lineId _ _ _ _ hloop (fun hc' => hminus (hsuf.subset hc'))
        (by simp [InfoState.init, INT_MAX])
      exact slot_nonneg r0 idx l hc hr hmem
  · intro sep trail fs moves calls idx l hsep htrail hwf hmoves hpos hp hmem
    have hb : atBoundary (fieldsText sep fs ++ pvText sep moves trail) = true :=
      atBoundary_fieldsText_append hsep fs (atBoundary_sep_append hsep _)
    rw [parseMessage_info hb, info_fields_pv hsep htrail fs hwf moves hmoves] at hp
    rw [← Option.some.inj hp] at hmem
    have hr : 0 ≤ (afterFields fs).curLineId ∧ (afterFields fs).curLineId ≤ INT_MAX :=
      foldl_effect_lineId_range fs InfoState.init hwf hpos (by simp [InfoState.init, INT_MAX])
    have hc : ∀ c ∈ (afterPv (afterFields fs) moves).calls, isUpdateLine c = false := by
      have := (afterFields_summary fs).1
      simp only [afterPv, this]
      exact timeNpsCalls_not_updateLine fs
    exact slot_nonneg _ idx l hc hr hmem

/-- Instances of C19: a line without a minus sign, and a line with a negative score. -/
theorem C19_slot_index_nonneg_witness :
    (∀ calls idx l,
      parseMessage "info depth 5 multipv 2 score mate 3 pv g1f3".toList = some calls →
      Call.updateLine idx l ∈ calls → 0 ≤ idx) ∧
    (∀ calls idx l,
      parseMessage "info depth 5 multipv 2 score cp -30 pv g1f3".toList = some calls →
      Call.updateLine idx l ∈ calls → 0 ≤ idx) := by
  constructor
  · intro calls idx l
    exact C19_slot_index_nonneg.1 "info depth 5 multipv 2 score mate 3 pv g1f3".toList
      calls idx l (by simp)
  · intro calls idx l hp
    have heq : "info depth 5 multipv 2 score cp -30 pv g1f3".toList
        = "info".toList ++ (fieldsText [' ']
            [Field.depth 5, Field.multipv 2, Field.scoreCp (-30)]
            ++ pvText [' '] ["g1f3".toList] []) := rfl
    rw [heq] at hp
    exact C19_slot_index_nonneg.2 [' '] []
      [Field.depth 5, Field.multipv 2, Field.scoreCp (-30)] ["g1f3".toList] calls idx l
      (by decide) (by decide) (by decide) (by decide) (by simp) hp

/-- C19 as stated fails: a negative `multipv` is not zero, so the line is forwarded, with
the slot index -4. -/
theorem C19_counterexample_negative_multipv :
    parseMessage "info multipv -3 score cp 5 pv e2e4".toList
      = some [Call.updateLine (-4) ⟨FloatVal.ofInt 5, 0, ["e2e4".toList], false⟩] := by
  decide

/-- C17 fails on the code: the score kind `foo` is not recognized and no score is read,
yet `eval` is already set and the line is forwarded with the eval 0. -/
theorem C17_unrecognized_score_forwarded :
    parseMessage "info depth 3 multipv 1 score foo pv e2e4".toList
      = some [Call.updateLine 0 ⟨FloatVal.ofInt 0, 3, ["e2e4".toList], false⟩] := by
  decide

end SlotIndexClaims

section IgnoredFields

theorem effect_dropToken (st : InfoState) (f : Field) :
    dropToken (Field.effect st f) = dropToken (Field.effect (dropToken st) f) := by
  cases f <;> simp [Field.effect, dropToken]

theorem passive_effect (st : InfoState) (g : Field) (hg : g.isPassive = true) :
    dropToken (Field.effect st g) = dropToken st := by
  cases g <;> simp [Field.isPassive] at hg <;> simp [Field.effect, dropToken]

theorem foldl_dropToken_congr (fs : List Field) : ∀ (st st' : InfoState),
    dropToken st = dropToken st' →
    dropToken (fs.foldl Field.effect st) = dropToken (fs.foldl Field.effect st') := by
  induction fs with
  | nil => intro st st' h; exact h
  | cons f fs ih =>
    intro st st' h
    simp only [List.foldl_cons]
    apply ih
    rw [effect_dropToken st f, effect_dropToken st' f, h]

theorem infoFinish_dropToken (st : InfoState) : infoFinish st = infoFinish (dropToken st) :=
  rfl

theorem afterPv_dropToken (st : InfoState) (moves : List (List Char)) :
    dropToken (afterPv st moves) = dropToken (afterPv (dropToken st) moves) := by
  simp [afterPv, dropToken]

/-- A passive field inserted among well-formed fields changes the locals of `info` in
`token` at most. -/
theorem afterFields_insert (fs1 fs2 : List Field) (g : Field) (hg : g.isPassive = true) :
    dropToken (afterFields (fs1 ++ g :: fs2)) = dropToken (afterFields (fs1 ++ fs2)) := by
  simp only [afterFields, List.foldl_append, List.foldl_cons]
  exact foldl_dropToken_congr fs2 _ _ (passive_effect _ g hg)

/-- C16 (amended): after `info string`, tokens that are none of the key words on which the
parser acts cause no call; and a dropped key word with such argument tokens, or
`hashfull` with its argument, inserted between the well-formed fields of a line, leaves the
calls of the line as they were, with or without a `pv` field. -/
theorem C16_ignored_fields_no_effect (sep trail : List Char) (toks : List (List Char))
    (fs1 fs2 : List Field) (g : Field) (moves : List (List Char))
    (hsep : isSep sep = true) (htrail : isWs trail = true)
    (htoks : (Field.ignored ("string".toList :: toks)).wf = true)
    (hwf1 : ∀ f ∈ fs1, f.wf = true) (hwf2 : ∀ f ∈ fs2, f.wf = true)
    (hg : g.isPassive = true) (hgwf : g.wf = true) (hmoves : ∀ m ∈ moves, isTok m = true) :
    parseMessage ("info".toList ++
        (fieldsText sep [Field.ignored ("string".toList :: toks)] ++ trail)) = some [] ∧
    parseMessage ("info".toList ++ (fieldsText sep (fs1 ++ g :: fs2) ++ trail))
      = parseMessage ("info".toList ++ (fieldsText sep (fs1 ++ fs2) ++ trail)) ∧
    parseMessage ("info".toList ++ (fieldsText sep (fs1 ++ g :: fs2) ++ pvText sep moves trail))
      = parseMessage ("info".toList ++ (fieldsText sep (fs1 ++ fs2) ++ pvText sep moves trail)) := by
  have hb : ∀ fs, atBoundary (fieldsText sep fs ++ trail) = true := fun fs =>
    atBoundary_fieldsText_append hsep fs (atBoundary_of_isWs htrail)
  have hbp : ∀ fs, atBoundary (fieldsText sep fs ++ pvText sep moves trail) = true :=
    fun fs => atBoundary_fieldsText_append hsep fs (atBoundary_sep_append hsep _)
  have hwf : ∀ f ∈ fs1 ++ fs2, f.wf = true := by
    intro f hf
    rcases List.mem_append.1 hf with h | h
    · exact hwf1 f h
    · exact hwf2 f h
  have hwfg : ∀ f ∈ fs1 ++ g :: fs2, f.wf = true := by
    intro f hf
    rcases List.mem_append.1 hf with h | h
    · exact hwf1 f h
    · rcases List.mem_cons.1 h with h | h
      · rw [h]; exact hgwf
      · exact hwf2 f h
  have hins := afterFields_insert fs1 fs2 g hg
  refine ⟨?_, ?_, ?_⟩
  · rw [parseMessage_info (hb _), info_fields hsep htrail _ (by simpa using htoks),
      infoFinish_afterFields]
    rfl
  · rw [parseMessage_info (hb _), parseMessage_info (hb _), info_fields hsep htrail _ hwfg,
      info_fields hsep htrail _ hwf, infoFinish_dropToken, hins, ← infoFinish_dropToken]
  · rw [parseMessage_info (hbp _), parseMessage_info (hbp _),
      info_fields_pv hsep htrail _ hwfg moves hmoves,
      info_fields_pv hsep htrail _ hwf moves hmoves, infoFinish_dropToken,
      afterPv_dropToken, hins, ← afterPv_dropToken, ← infoFinish_dropToken]

/-- Instances of C16: a text after `info string`, and `currmove e2e4` inserted in the
first example of the spec. -/
theorem C16_ignored_fields_no_effect_witness :
    parseMessage "info string hello world".toList = some [] ∧
    parseMessage "info depth 12 currmove e2e4 multipv 1 score cp 34 nps 500000".toList
      = parseMessage "info depth 12 multipv 1 score cp 34 nps 500000".toList ∧
    parseMessage
        "info depth 12 currmove e2e4 multipv 1 score cp 34 nps 500000 pv e2e4 e7e5".toList
      = parseMessage "info depth 12 multipv 1 score cp 34 nps 500000 pv e2e4 e7e5".toList :=
  C16_ignored_fields_no_effect [' '] [] ["hello".toList, "world".toList]
    [Field.depth 12] [Field.multipv 1, Field.scoreCp 34, Field.nps 500000]
    (Field.ignored ["currmove".toList, "e2e4".toList]) ["e2e4".toList, "e7e5".toList]
    (by decide) (by decide) (by decide) (by decide) (by decide) (by decide) (by decide)
    (by decide)

/-- C16 as stated fails: the tokens after `info string` are parsed as fields, and
`time 5` among them is forwarded. -/
theorem C16_counterexample_string_payload :
    parseMessage "info string time 5".toList = some [Call.updateThinktime 5] := by
  decide

end IgnoredFields
